import Mathlib

/-!
# Verification of the schema-flexible extraction and fallback engine

A shallow embedding of the data-shaping core of the repository:

* `src/src/services/gemini_analyzer.py`
  - `GeminiAnalyzer._clean_schema_for_gemini`  (schema sanitizer)
  - `GeminiAnalyzer._resolve_schema_refs`      (reference inlining)
  - `GeminiAnalyzer._format_generic_data`      (fallback formatter)
  - `GeminiAnalyzer._extract_structured_data`  (reconciliation / orchestration)
* `src/src/models/base.py` (`BaseExtraction`, `GenericExtraction`)
* the six category record classes in `src/src/models/`.

Python JSON values are modelled by `JVal`; Python dicts by insertion-ordered
association lists.  Operations that may raise a `TypeError` in Python
(for example `x in y` on incompatible types) return `Option`/are threaded
through `Option`, `none` standing for the raised exception.
-/

/-- A Python value as produced by `json.loads`: `null`, booleans, numbers
(ints and floats are represented together as rationals), strings, lists and
dicts.  A dict is an insertion-ordered association list; dict primitives
below keep keys unique the way Python dicts do. -/
inductive JVal where
  | null : JVal
  | bool : Bool → JVal
  | num : Rat → JVal
  | str : String → JVal
  | arr : List JVal → JVal
  | obj : List (String × JVal) → JVal

namespace JVal

mutual

/-- Structural equality test, recursing through the nested list positions
(no deriving handler applies to a nested inductive). -/
def beqJ : JVal → JVal → Bool
  | null, null => true
  | str a, str b => a == b
  | num a, num b => a == b
  | bool a, bool b => a == b
  | obj a, obj b => beqJFields a b
  | arr a, arr b => beqJList a b
  | _, _ => false

def beqJList : List JVal → List JVal → Bool
  | x :: xs, y :: ys => beqJ x y && beqJList xs ys
  | [], [] => true
  | _, _ => false

def beqJFields : List (String × JVal) → List (String × JVal) → Bool
  | (k, v) :: xs, (k', v') :: ys => k == k' && beqJ v v' && beqJFields xs ys
  | [], [] => true
  | _, _ => false

end

mutual

theorem beqJ_iff : ∀ a b : JVal, beqJ a b = true ↔ a = b
  | null, null => by simp [beqJ]
  | str _, str _ => by simp [beqJ]
  | num _, num _ => by simp [beqJ]
  | bool _, bool _ => by simp [beqJ]
  | obj x, obj y => by simp [beqJ, beqJFields_iff x y]
  | arr x, arr y => by simp [beqJ, beqJList_iff x y]
  | null, bool _ => by simp [beqJ]
  | null, num _ => by simp [beqJ]
  | null, str _ => by simp [beqJ]
  | null, arr _ => by simp [beqJ]
  | null, obj _ => by simp [beqJ]
  | bool _, null => by simp [beqJ]
  | bool _, num _ => by simp [beqJ]
  | bool _, str _ => by simp [beqJ]
  | bool _, arr _ => by simp [beqJ]
  | bool _, obj _ => by simp [beqJ]
  | num _, null => by simp [beqJ]
  | num _, bool _ => by simp [beqJ]
  | num _, str _ => by simp [beqJ]
  | num _, arr _ => by simp [beqJ]
  | num _, obj _ => by simp [beqJ]
  | str _, null => by simp [beqJ]
  | str _, bool _ => by simp [beqJ]
  | str _, num _ => by simp [beqJ]
  | str _, arr _ => by simp [beqJ]
  | str _, obj _ => by simp [beqJ]
  | arr _, null => by simp [beqJ]
  | arr _, bool _ => by simp [beqJ]
  | arr _, num _ => by simp [beqJ]
  | arr _, str _ => by simp [beqJ]
  | arr _, obj _ => by simp [beqJ]
  | obj _, null => by simp [beqJ]
  | obj _, bool _ => by simp [beqJ]
  | obj _, num _ => by simp [beqJ]
  | obj _, str _ => by simp [beqJ]
  | obj _, arr _ => by simp [beqJ]

theorem beqJList_iff : ∀ xs ys : List JVal, beqJList xs ys = true ↔ xs = ys
  | x :: xs, y :: ys => by
      simp [beqJList, beqJ_iff x y, beqJList_iff xs ys]
  | [], [] => by simp [beqJList]
  | [], _ :: _ => by simp [beqJList]
  | _ :: _, [] => by simp [beqJList]

theorem beqJFields_iff :
    ∀ xs ys : List (String × JVal), beqJFields xs ys = true ↔ xs = ys
  | (k, v) :: xs, (k', v') :: ys => by
      simp [beqJFields, beqJ_iff v v', beqJFields_iff xs ys, Prod.ext_iff,
        and_assoc]
  | [], [] => by simp [beqJFields]
  | [], _ :: _ => by simp [beqJFields]
  | _ :: _, [] => by simp [beqJFields]

end

instance : DecidableEq JVal := fun a b => decidable_of_iff _ (beqJ_iff a b)

/-- `d.get(k)` on a Python dict (our assoc lists keep at most one entry per
key, so first-match lookup agrees with Python). -/
def objGet (kvs : List (String × JVal)) (k : String) : Option JVal :=
  match kvs with
  | [] => none
  | (k', v) :: rest => if k' = k then some v else objGet rest k

/-- `k in d` on a Python dict. -/
def objHasKey (kvs : List (String × JVal)) (k : String) : Bool :=
  match kvs with
  | [] => false
  | (k', _) :: rest => k' = k || objHasKey rest k

/-- `d[k] = v` on a Python dict: replace the value in place if the key is
present, otherwise append the new entry at the end (insertion order). -/
def objSet (kvs : List (String × JVal)) (k : String) (v : JVal) :
    List (String × JVal) :=
  match kvs with
  | [] => [(k, v)]
  | (k', v') :: rest =>
      if k' = k then (k', v) :: rest else (k', v') :: objSet rest k v

/-- `del d[k]` on a Python dict (removes every entry with that key; with
unique keys this is the one entry). -/
def objDel (kvs : List (String × JVal)) (k : String) :
    List (String × JVal) :=
  match kvs with
  | [] => []
  | (k', v') :: rest =>
      if k' = k then objDel rest k else (k', v') :: objDel rest k

/-- `d.update(e)` on Python dicts: existing keys are overwritten in place,
new keys are appended in `e`'s order. -/
def objUpdate (kvs e : List (String × JVal)) : List (String × JVal) :=
  match e with
  | [] => kvs
  | (k, v) :: rest => objUpdate (objSet kvs k v) rest

/-- Python truthiness (`bool(v)`) on a JSON value. -/
def pyTruthy : JVal → Bool
  | null => false
  | bool b => b
  | num q => q ≠ 0
  | str s => s ≠ ""
  | arr xs => !xs.isEmpty
  | obj kvs => !kvs.isEmpty

/-- `a or b` in Python: the first operand if truthy, otherwise the second. -/
def pyOr (a b : JVal) : JVal := if pyTruthy a then a else b

theorem sizeOf_lt_of_objGet :
    ∀ {kvs : List (String × JVal)} {k : String} {v : JVal},
      objGet kvs k = some v → sizeOf v < sizeOf kvs := by
  intro kvs
  induction kvs with
  | nil => intro k v h; simp [objGet] at h
  | cons kv rest ih =>
      intro k v h
      obtain ⟨k', v'⟩ := kv
      simp only [objGet] at h
      split at h
      · cases h
        simp only [List.cons.sizeOf_spec, Prod.mk.sizeOf_spec]
        omega
      · have := ih h
        simp only [List.cons.sizeOf_spec]
        omega

mutual

/-- Python `==` on JSON values: numeric comparison crosses `bool`/number
(`True == 1`), lists compare elementwise, dicts compare as unordered
key-value maps (same size and every key of the first maps to an equal
value in the second; dict keys are unique in values that Python can
actually produce). -/
def pyEq : JVal → JVal → Bool
  | null, null => true
  | bool a, bool b => a == b
  | bool a, num q => q == (if a then (1 : Rat) else 0)
  | num q, bool b => q == (if b then (1 : Rat) else 0)
  | num a, num b => a == b
  | str a, str b => a == b
  | arr xs, arr ys => pyEqList xs ys
  | obj d1, obj d2 => d1.length == d2.length && pyEqFields d1 d2
  | _, _ => false
termination_by a b => sizeOf a + sizeOf b

def pyEqList : List JVal → List JVal → Bool
  | [], [] => true
  | x :: xs, y :: ys => pyEq x y && pyEqList xs ys
  | _, _ => false
termination_by xs ys => sizeOf xs + sizeOf ys

def pyEqFields : List (String × JVal) → List (String × JVal) → Bool
  | [], _ => true
  | (k, v) :: rest, d2 =>
      (match h : objGet d2 k with
       | some w => pyEq v w
       | none => false) && pyEqFields rest d2
termination_by d1 d2 => sizeOf d1 + sizeOf d2
decreasing_by
  all_goals simp_wf
  all_goals try omega
  all_goals (have hlt := sizeOf_lt_of_objGet h; omega)

end

/-- `for x in v`: the list of values Python iterates over — a list yields
its elements, a string its characters (as one-character strings), a dict
its keys; other values raise `TypeError` (`none`). -/
def pyIterate : JVal → Option (List JVal)
  | arr xs => some xs
  | str s => some (s.toList.map fun c => str (String.mk [c]))
  | obj kvs => some (kvs.map fun kv => str kv.1)
  | _ => none

/-- `needle in haystack` on Python strings: `needle` occurs as a contiguous
substring (the empty string occurs in everything). -/
def strContains (haystack needle : List Char) : Bool :=
  match haystack with
  | [] => needle.isEmpty
  | _ :: rest => needle.isPrefixOf haystack || strContains rest needle

/-- `r in c` in Python: key test on dicts (unhashable `r` raises), equality
scan on lists, substring test on strings (non-string `r` raises), and
`TypeError` (`none`) on non-container values. -/
def pyMem (r c : JVal) : Option Bool :=
  match c with
  | obj kvs =>
      match r with
      | str s => some (objHasKey kvs s)
      | null | bool _ | num _ => some false
      | arr _ | obj _ => none
  | arr xs => some (xs.any fun x => pyEq r x)
  | str t =>
      match r with
      | str s => some (strContains t.toList s.toList)
      | _ => none
  | _ => none

end JVal

namespace GeminiAnalyzer

open JVal

/-- The keyword allowlist of `_clean_schema_for_gemini` (`supported_fields`). -/
def supported_fields : List String :=
  ["type", "properties", "items", "required", "enum"]

/-- The `[req for req in cleaned["required"] if req in cleaned["properties"]]`
filter of `_clean_schema_for_gemini`: membership may raise (`none`). -/
def filterMem : List JVal → JVal → Option (List JVal)
  | [], _ => some []
  | e :: rest, p => do
      let b ← pyMem e p
      let tail ← filterMem rest p
      pure (if b then e :: tail else tail)

/-- The post-processing step of `_clean_schema_for_gemini`: when both
`required` and `properties` ended up in `cleaned`, filter the `required`
value (iterating it the way Python `for` does) down to the members of the
`properties` value; install the filtered list, or delete `required` when
the filtered list is empty. -/
def postRequired (cleaned : List (String × JVal)) :
    Option (List (String × JVal)) :=
  match objGet cleaned "required", objGet cleaned "properties" with
  | some r, some p => do
      let elems ← pyIterate r
      let valid ← filterMem elems p
      pure (if valid.isEmpty then objDel cleaned "required"
            else objSet cleaned "required" (arr valid))
  | _, _ => some cleaned

/-- The catch-all `else` branch of the loop body: keep the recursively
cleaned value unless it is `None` or an empty dict. -/
def keep_cleaned_value (acc : List (String × JVal)) (k : String)
    (cv : JVal) : List (String × JVal) :=
  if cv = null ∨ cv = obj [] then acc else objSet acc k cv

mutual

/-- `GeminiAnalyzer._clean_schema_for_gemini` (gemini_analyzer.py:356-427):
allowlist-based schema sanitizer.  `none` models a raised `TypeError`
(possible only through the `required`/`properties` post-processing on
malformed documents). -/
def clean_schema_for_gemini : JVal → Option JVal
  | obj kvs => do
      let cleaned ← cleanFields kvs []
      let post ← postRequired cleaned
      pure (obj post)
  | arr xs => do
      pure (arr (← cleanList xs))
  | v => pure v
termination_by structural v => v

/-- The list branch: `[self._clean_schema_for_gemini(item) for item in schema]`. -/
def cleanList : List JVal → Option (List JVal)
  | [] => pure []
  | x :: xs => do
      pure ((← clean_schema_for_gemini x) :: (← cleanList xs))
termination_by structural xs => xs

/-- The `for key, value in schema.items()` loop building `cleaned`
(an accumulator holds the dict built so far). -/
def cleanFields :
    List (String × JVal) → List (String × JVal) →
      Option (List (String × JVal))
  | [], acc => pure acc
  | (k, v) :: rest, acc => do
      let acc' ←
        if k ∈ supported_fields then
          if k = "properties" then
            match v with
            | obj pkvs => do
                let cp ← cleanProps pkvs []
                pure (if cp.isEmpty then acc else objSet acc k (obj cp))
            | w => do
                pure (keep_cleaned_value acc k (← clean_schema_for_gemini w))
          else if k = "required" then
            match v with
            | arr l => pure (objSet acc k (arr l))
            | w => do
                pure (keep_cleaned_value acc k (← clean_schema_for_gemini w))
          else do
            pure (keep_cleaned_value acc k (← clean_schema_for_gemini v))
        else pure acc
      cleanFields rest acc'
termination_by structural l _ => l

/-- The `for prop_name, prop_schema in value.items()` loop of the
`properties` branch: keep each cleaned property only if truthy. -/
def cleanProps :
    List (String × JVal) → List (String × JVal) →
      Option (List (String × JVal))
  | [], acc => pure acc
  | (pn, ps) :: rest, acc => do
      let cp ← clean_schema_for_gemini ps
      cleanProps rest (if pyTruthy cp then objSet acc pn cp else acc)
termination_by structural l _ => l

end

/-- `ref_path.startswith(prefix_text)` on the character level. -/
def py_startswith (s pre : String) : Bool :=
  pre.toList.isPrefixOf s.toList

/-- `ref_path.split("/")[-1]`: the suffix after the last slash. -/
def last_path_segment (s : String) : String :=
  String.mk ((s.toList.reverse.takeWhile fun c => c ≠ '/').reverse)

/-- `GeminiAnalyzer._resolve_schema_refs` (gemini_analyzer.py:429-458):
inline `#/$defs/<name>` references by replacing the referencing dict with
the named definition, recursively.  The Python recursion is unbounded
(a cyclic reference exhausts the interpreter stack), so the embedding
carries fuel; `none` models `RecursionError` or the `AttributeError`
raised by `.startswith` on a non-string `$ref` value. -/
def resolve_schema_refs :
    Nat → JVal → List (String × JVal) → Option JVal
  | 0, _, _ => none
  | fuel + 1, schema, defs =>
      match schema with
      | obj kvs =>
          match objGet kvs "$ref" with
          | some (str ref_path) =>
              if py_startswith ref_path "#/$defs/" then
                let ref_name := last_path_segment ref_path
                match objGet defs ref_name with
                | some d => resolve_schema_refs fuel d defs
                | none => some (obj kvs)
              else some (obj kvs)
          | some _ => none
          | none => do
              let kvs' ← kvs.mapM fun kv => do
                pure (kv.1, ← resolve_schema_refs fuel kv.2 defs)
              pure (obj kvs')
      | arr xs => do
          let xs' ← xs.mapM fun x => resolve_schema_refs fuel x defs
          pure (arr xs')
      | v => some v

/-! ## The six category model classes and the generic fallback model
(`src/src/models/`). -/

/-- The six strict pydantic model classes handled by
`_extract_structured_data`'s `category_map`. -/
inductive ModelClass where
  | workoutRoutine
  | recipeCard
  | travelItinerary
  | productCatalog
  | tutorialSummary
  | songMetadata
  deriving DecidableEq

/-- `category_map` of `_extract_structured_data` (gemini_analyzer.py:619-626). -/
def category_map : ModelClass → String
  | .workoutRoutine => "workout"
  | .recipeCard => "recipe"
  | .travelItinerary => "travel"
  | .productCatalog => "product"
  | .tutorialSummary => "educational"
  | .songMetadata => "music"

/-- `model_class.__name__`, used for the `_original_category` marker. -/
def class_name : ModelClass → String
  | .workoutRoutine => "WorkoutRoutine"
  | .recipeCard => "RecipeCard"
  | .travelItinerary => "TravelItinerary"
  | .productCatalog => "ProductCatalog"
  | .tutorialSummary => "TutorialSummary"
  | .songMetadata => "SongMetadata"

/-- The fields of `BaseExtraction` (models/base.py), inherited by every
strict model class. -/
def base_fields : List String :=
  ["category", "title", "description", "source_url", "extracted_at",
   "keyframes", "confidence_score", "additional_context"]

/-- `model_class.model_fields.keys()`: the declared field names of each
strict model class (base envelope plus the class's own fields, from
`src/src/models/{workout,recipe,travel,product,educational,music}.py`). -/
def model_fields : ModelClass → List String
  | .workoutRoutine =>
      base_fields ++
        ["exercises", "total_rounds", "estimated_duration_minutes",
         "difficulty_level", "music_tempo_bpm"]
  | .recipeCard =>
      base_fields ++
        ["ingredients", "steps", "prep_time_minutes", "cook_time_minutes",
         "servings", "cuisine_type"]
  | .travelItinerary =>
      base_fields ++
        ["destination", "activities", "day_breakdown", "estimated_budget"]
  | .productCatalog => base_fields ++ ["products"]
  | .tutorialSummary =>
      base_fields ++
        ["topic", "steps", "prerequisites", "estimated_time_minutes"]
  | .songMetadata =>
      base_fields ++
        ["song_title", "artist", "genre", "lyrics_snippet", "spotify_link",
         "youtube_link", "mood"]

/-- The `GenericExtraction` pydantic model (models/base.py:68-96), reduced
to the fields its constructor receives on the fallback path
(`extracted_at` and `keyframes` only ever take their defaults there). -/
structure GenericExtraction where
  category : String
  title : Option String
  description : Option String
  source_url : Option String
  confidence_score : Rat
  raw_data : List (String × JVal)
  deriving DecidableEq

/-- The literal `0.5` used as the fallback confidence default,
written in normalized form (numerator 1, denominator 2) so that kernel
evaluation of concrete runs works. -/
def half : Rat := ⟨1, 2, by decide, Nat.coprime_one_left _⟩

/-- pydantic validation of an `Optional[str]` field: `None` or a string;
anything else is a `ValidationError`. -/
def optStrField : JVal → Option (Option String)
  | .null => some none
  | .str s => some (some s)
  | _ => none

/-- pydantic validation of a required `str` field. -/
def reqStrField : JVal → Option String
  | .str s => some s
  | _ => none

/-- pydantic validation of the `confidence_score` field: a number within
the `ge=0.0, le=1.0` bounds (models/base.py:83-88) — out-of-range values
are a `ValidationError`, pydantic does not clamp. -/
def confField : JVal → Option Rat
  | .num q => if 0 ≤ q ∧ q ≤ 1 then some q else none
  | _ => none

/-- pydantic validation of the `raw_data : Dict[str, Any]` field. -/
def rawField : JVal → Option (List (String × JVal))
  | .obj kvs => some kvs
  | _ => none

/-- The confidence-bound aspect of strict construction: every strict model
class extends `BaseExtraction`, whose `confidence_score` field carries
`ge=0.0, le=1.0` (models/base.py:35-40), so `model_class(**kwargs)`
raises whenever the kwargs carry a numeric score outside the range.
This predicate is the weakest validator consistent with that bound; real
pydantic validation implies it. -/
def confidence_in_range (d : List (String × JVal)) : Bool :=
  match JVal.objGet d "confidence_score" with
  | some (.num q) => decide (0 ≤ q ∧ q ≤ 1)
  | some _ => false
  | none => true

/-- `GenericExtraction(**generic_data)`: pydantic construction of the
fallback model.  `category` must be a string, `title`/`description`/
`source_url` optional strings, `confidence_score` a number in
`[0.0, 1.0]`, `raw_data` a dict.  (Lax coercion of numeric strings to
float is not modelled; no value on the paths studied here is a numeric
string.) -/
def genericExtractionInit (category title description source_url
    confidence raw : JVal) : Option GenericExtraction :=
  (reqStrField category).bind fun c =>
  (optStrField title).bind fun t =>
  (optStrField description).bind fun d =>
  (optStrField source_url).bind fun u =>
  (confField confidence).bind fun q =>
  (rawField raw).map fun rd => ⟨c, t, d, u, q, rd⟩

/-! ## `_format_generic_data` (gemini_analyzer.py:461-523). -/

/-- `d.get(k)` with Python's default of `None`. -/
def objGetD (kvs : List (String × JVal)) (k : String) : JVal :=
  (objGet kvs k).getD JVal.null

/-- `dict(pairs)`-style construction: fold Python dict assignment over a
key/value sequence (later occurrences of a key overwrite in place). -/
def toDict (kvs : List (String × JVal)) : List (String × JVal) :=
  kvs.foldl (fun acc kv => objSet acc kv.1 kv.2) []

/-- `d.update(x)` where `x` may be any Python value: a dict merges; a list
must consist of `[key, value]` pairs; anything else raises.  (Exotic
iterables of pairs — e.g. two-character strings — are not modelled and
map to the error case.) -/
def pyDictUpdate (d : List (String × JVal)) (x : JVal) :
    Option (List (String × JVal)) :=
  match x with
  | .obj e => some (objUpdate d e)
  | .arr pairs =>
      pairs.foldlM
        (fun acc p =>
          match p with
          | .arr [.str k, v] => some (objSet acc k v)
          | _ => none)
        d
  | _ => none

/-- The `field_mappings` table of `_format_generic_data`. -/
def title_variations : List String :=
  ["title", "name", "recipe_name", "workout_name", "song_title", "topic"]

def description_variations : List String :=
  ["description", "desc", "summary", "overview", "notes"]

def items_variations : List String :=
  ["items", "list", "ingredients", "exercises", "activities", "products",
   "steps"]

/-- `for variation in variations: if variation in data and data[variation]:
... break` — the first variation present with a truthy value. -/
def firstTruthyHit (kvs : List (String × JVal)) (variations : List String) :
    Option JVal :=
  variations.findSome? fun name =>
    (objGet kvs name).bind fun x => if pyTruthy x then some x else none

/-- The per-item key normalization of `_format_generic_data`: inside a
dict list item, the keys `item`/`exercise`/`activity`/`product` are
rewritten to `name`; other keys are copied. -/
def item_key_aliases : List String := ["item", "exercise", "activity", "product"]

/-- One step of the per-item key normalization. -/
def normalize_item_step (acc : List (String × JVal)) (kv : String × JVal) :
    List (String × JVal) :=
  if kv.1 ∈ item_key_aliases then objSet acc "name" kv.2
  else objSet acc kv.1 kv.2

/-- The `for k, v in item.items()` loop over one dict list item. -/
def normalize_item_fields (ikvs : List (String × JVal)) :
    List (String × JVal) :=
  ikvs.foldl normalize_item_step []

def normalize_item : JVal → JVal
  | .obj ikvs => .obj (normalize_item_fields ikvs)
  | v => v

/-- The `for key, value in data.items()` copy loop of
`_format_generic_data`: a non-empty list value is re-written with
normalized items (overwriting any alias-pass entry); any other value is
copied only when the key is not yet present. -/
def format_copy_step (acc : List (String × JVal)) (kv : String × JVal) :
    List (String × JVal) :=
  match kv.2 with
  | .arr xs =>
      if xs.isEmpty then
        if objHasKey acc kv.1 then acc else objSet acc kv.1 kv.2
      else objSet acc kv.1 (.arr (xs.map normalize_item))
  | _ => if objHasKey acc kv.1 then acc else objSet acc kv.1 kv.2

/-- `GeminiAnalyzer._format_generic_data` (gemini_analyzer.py:461-523): the
fallback formatter.  A top-level list is first wrapped into
`{"items": [...]}`; a non-dict non-list argument raises (`none`), though
the caller only ever passes a dict. -/
def format_generic_data (data : JVal) (mc : ModelClass) :
    Option (List (String × JVal)) := do
  let kvs ←
    match data with
    | .arr xs => some [("items", JVal.arr xs)]
    | .obj kvs => some kvs
    | _ => none
  let f0 : List (String × JVal) := []
  let f1 := match firstTruthyHit kvs title_variations with
            | some x => objSet f0 "title" x
            | none => f0
  let f2 := match firstTruthyHit kvs description_variations with
            | some x => objSet f1 "description" x
            | none => f1
  let f3 := match firstTruthyHit kvs items_variations with
            | some x => objSet f2 "items" x
            | none => f2
  let f4 := kvs.foldl format_copy_step f3
  let f5 := objSet f4 "_original_category" (.str (class_name mc))
  pure (objSet f5 "_fallback_reason"
    (.str "Field name mismatch or validation error"))

/-! ## `_extract_structured_data` (gemini_analyzer.py:527-707). -/

/-- `response_text` clean-up before `json.loads`
(gemini_analyzer.py:581-587): strip, then unwrap a leading markdown code
fence (```json or bare ```). -/
def strip_code_fences (s : String) : String :=
  let t := s.trim
  if t.startsWith "```json" then
    ((((t.splitOn "```json").getD 1 "").splitOn "```").headD "").trim
  else if t.startsWith "```" then
    ((((t.splitOn "```").getD 1 "").splitOn "```").headD "").trim
  else t

/-- The characters before the first newline. -/
def firstLineChars (l : List Char) : List Char :=
  l.takeWhile fun c => c ≠ '\n'

/-- Drop whitespace characters from both ends. -/
def stripChars (l : List Char) : List Char :=
  ((l.dropWhile Char.isWhitespace).reverse.dropWhile
      Char.isWhitespace).reverse

/-- `s.split("\n")[0]`: the characters before the first newline. -/
def first_line_of (s : String) : String :=
  String.mk (firstLineChars s.toList)

/-- Python `str.strip()`: drop whitespace from both ends. -/
def py_strip (s : String) : String :=
  String.mk (stripChars s.toList)

/-- `first_line[:50]` after `exercise["name"].split("\n")[0].strip()`:
the cleanup applied to an over-long exercise name
(gemini_analyzer.py:609-612). -/
def truncate_exercise_name (s : String) : String :=
  let first_line := py_strip (first_line_of s)
  if first_line.length > 50 then String.mk (first_line.toList.take 50)
  else first_line

/-- The per-item body of the exercises cleanup loop
(gemini_analyzer.py:607-612).  For a dict item, a string `name` longer
than 100 characters is replaced by its trimmed first line capped at 50
characters; other dict items pass through.  Non-dict items can raise a
`TypeError` (`none`): `"name" in item` raises on numbers and `None`,
and a hit on a string or list item makes `item["name"]` raise. -/
def cleanup_exercise_item : JVal → Option JVal
  | .obj kvs =>
      match objGet kvs "name" with
      | some (.str s) =>
          some (.obj (if s.length > 100 then
                        objSet kvs "name" (.str (truncate_exercise_name s))
                      else kvs))
      | _ => some (.obj kvs)
  | .str s =>
      if strContains s.toList "name".toList then none else some (.str s)
  | .arr xs =>
      if xs.any (fun x => pyEq (.str "name") x) then none else some (.arr xs)
  | _ => none

/-- The per-entry guard of the cleanup: only a list value under the key
`"exercises"`, when `exercises` is a declared model field, is touched. -/
def cleanup_value (fields : List String) (k : String) (v : JVal) :
    Option JVal :=
  if k ∈ fields ∧ k = "exercises" then
    match v with
    | .arr xs => (xs.mapM cleanup_exercise_item).map JVal.arr
    | _ => some v
  else some v

/-- The cleanup applied by the partition loop of `_extract_structured_data`
(gemini_analyzer.py:605-612): a list under the key `exercises`, when
`exercises` is a declared model field, has each item cleaned in place.
Since Python mutates the shared item dicts, the result is the updated
view of `gemini_data` itself. -/
def cleanup_pass (fields : List String) :
    List (String × JVal) → Option (List (String × JVal))
  | [] => some []
  | (k, v) :: rest => do
      let v' ← cleanup_value fields k v
      let rest' ← cleanup_pass fields rest
      pure ((k, v') :: rest')

/-- What `_extract_structured_data` returns, after the backend response has
been received: a validated strict instance (carrying the keyword
arguments its constructor accepted), a `GenericExtraction` fallback, or
an error result `(None, message)`. -/
inductive ExtractErrKind where
  | invalidJson    -- `json.JSONDecodeError`: "Invalid JSON response: ..."
  | genericFailed  -- "Failed to create even generic extraction: ..."
  | extractErr     -- any other exception: "Error extracting data: ..."
  deriving DecidableEq

inductive ExtractResult where
  | strict (data : List (String × JVal))
  | generic (g : GenericExtraction)
  | failure (e : ExtractErrKind)
  deriving DecidableEq

/-- The `extra_context` merge (gemini_analyzer.py:631-641): returns the
updated `(mapped_data, gemini_data)` pair. -/
def merge_extra (mapped1 kvs extra : List (String × JVal)) :
    List (String × JVal) × List (String × JVal) :=
  if extra.isEmpty then (mapped1, kvs)
  else
    match objGet mapped1 "additional_context" with
    | some (.obj ctx) =>
        let newctx := JVal.obj (objUpdate ctx extra)
        (objSet mapped1 "additional_context" newctx,
         objSet kvs "additional_context" newctx)
    | some _ => (objSet mapped1 "additional_context" (.obj extra), kvs)
    | none => (objSet mapped1 "additional_context" (.obj extra), kvs)

/-- The model-specific defaults (gemini_analyzer.py:643-648): only
`WorkoutRoutine` fills in a 20-minute duration and an intermediate
difficulty when missing or `None`. -/
def apply_workout_defaults (mc : ModelClass) (mapped2 : List (String × JVal)) :
    List (String × JVal) :=
  if mc = .workoutRoutine then
    let m :=
      match objGet mapped2 "estimated_duration_minutes" with
      | none => objSet mapped2 "estimated_duration_minutes" (.num 20)
      | some .null => objSet mapped2 "estimated_duration_minutes" (.num 20)
      | some _ => mapped2
    match objGet m "difficulty_level" with
    | none => objSet m "difficulty_level" (.str "intermediate")
    | some .null => objSet m "difficulty_level" (.str "intermediate")
    | some _ => m
  else mapped2

/-- The reconciliation stage of `_extract_structured_data`
(gemini_analyzer.py:594-652), after the exercises cleanup: partition the
raw mapping into model fields (`mapped_data`) and extras
(`extra_context`), force the category, fold the extras into
`additional_context` (the in-place `update` of a dict-valued
`additional_context` also updates the dict shared with `gemini_data`),
and apply the workout-specific defaults.  Returns
`(mapped_data, extra_context, gemini_data-after-mutation)`. -/
def reconcile (mc : ModelClass) (kvs : List (String × JVal)) :
    List (String × JVal) × List (String × JVal) × List (String × JVal) :=
  let mapped0 := toDict (kvs.filter fun kv => kv.1 ∈ model_fields mc)
  let extra := toDict (kvs.filter fun kv => kv.1 ∉ model_fields mc)
  let mapped1 := objSet mapped0 "category" (.str (category_map mc))
  let merged := merge_extra mapped1 kvs extra
  (apply_workout_defaults mc merged.1, extra, merged.2)

/-- The first merge of the fallback branch (gemini_analyzer.py:669-678):
fold `mapped_data["additional_context"]`, when truthy, into
`formatted_data["additional_context"]`.  `none` models the exception
raised by `dict.update` on a non-mapping argument. -/
def merge_mapped_context (mapped3 formatted0 : List (String × JVal)) :
    Option (List (String × JVal)) :=
  match objGet mapped3 "additional_context" with
  | some acv =>
      if pyTruthy acv then
        let fd :=
          if objHasKey formatted0 "additional_context" then formatted0
          else objSet formatted0 "additional_context" (.obj [])
        match objGet fd "additional_context" with
        | some (.obj c) =>
            (pyDictUpdate c acv).map fun c' =>
              objSet fd "additional_context" (.obj c')
        | some _ => some (objSet fd "additional_context" acv)
        | none => some fd
      else some formatted0
  | none => some formatted0

/-- The second merge of the fallback branch (gemini_analyzer.py:680-686):
fold the separated `extra_context` dict into
`formatted_data["additional_context"]`. -/
def merge_extra_context (extra formatted1 : List (String × JVal)) :
    List (String × JVal) :=
  if extra.isEmpty then formatted1
  else
    let fd :=
      if objHasKey formatted1 "additional_context" then formatted1
      else objSet formatted1 "additional_context" (.obj [])
    match objGet fd "additional_context" with
    | some (.obj c) => objSet fd "additional_context" (.obj (objUpdate c extra))
    | some _ => objSet fd "additional_context" (.obj extra)
    | none => fd

/-- The fallback branch of `_extract_structured_data`
(gemini_analyzer.py:665-700): format the raw mapping, merge the
already-separated context into `formatted_data["additional_context"]`,
and construct the `GenericExtraction`.  Any exception here is caught and
reported as "Failed to create even generic extraction". -/
def build_generic (mc : ModelClass)
    (mapped3 extra kvs2 : List (String × JVal)) : ExtractResult :=
  match format_generic_data (JVal.obj kvs2) mc with
  | none => .failure .genericFailed
  | some formatted0 =>
      match merge_mapped_context mapped3 formatted0 with
      | none => .failure .genericFailed
      | some formatted1 =>
          let formatted2 := merge_extra_context extra formatted1
          let title := pyOr (objGetD formatted2 "title") (objGetD mapped3 "title")
          let descr := pyOr (objGetD formatted2 "description") (objGetD mapped3 "description")
          let cat := (objGet mapped3 "category").getD (.str "unknown")
          let src := objGetD mapped3 "source_url"
          let conf := (objGet mapped3 "confidence_score").getD (.num half)
          match genericExtractionInit cat title descr src conf (.obj formatted2) with
          | some g => .generic g
          | none => .failure .genericFailed

/-- `GeminiAnalyzer._extract_structured_data` (gemini_analyzer.py:577-705)
from the point where the backend's response text has been parsed:
`parsed = none` models `json.loads` raising `JSONDecodeError`.
`validates mc kwargs` abstracts `model_class(**kwargs)` succeeding —
the strict pydantic validation — so every theorem below holds for
every possible validator behaviour unless it constrains it. -/
def extract_structured_data
    (validates : ModelClass → List (String × JVal) → Bool)
    (mc : ModelClass) (parsed : Option JVal) : ExtractResult :=
  match parsed with
  | none => .failure .invalidJson
  | some parsedVal =>
      let gemini_data : JVal :=
        match parsedVal with
        | .arr xs => .obj [("items", JVal.arr xs)]
        | v => v
      match gemini_data with
      | .obj kvs0 =>
          match cleanup_pass (model_fields mc) kvs0 with
          | none => .failure .extractErr
          | some kvs =>
              let r := reconcile mc kvs
              if validates mc r.1 then .strict r.1
              else build_generic mc r.1 r.2.1 r.2.2
      | _ => .failure .extractErr

/-! ### Predicates over sanitizer outputs. -/

mutual

/-- Literally what claim C5 asserts of sanitizer output: every dict at
every nesting level carries only the five allowlisted keyword keys. -/
def allow_keys_only : JVal → Bool
  | .obj kvs => allowEntriesB kvs
  | .arr xs => allowListB xs
  | _ => true
termination_by structural v => v

def allowListB : List JVal → Bool
  | [] => true
  | x :: xs => allow_keys_only x && allowListB xs
termination_by structural l => l

def allowEntriesB : List (String × JVal) → Bool
  | [] => true
  | (k, v) :: rest =>
      (decide (k ∈ supported_fields) && allow_keys_only v) &&
        allowEntriesB rest
termination_by structural l => l

end

mutual

/-- The allowlist property in schema positions: every dict carries only
allowlisted keyword keys, except that the value of a `properties` key is
a map from field names (arbitrary keys) to schemas. -/
def sanitary_keys : JVal → Bool
  | .obj kvs => sanitaryEntriesB kvs
  | .arr xs => sanitaryListB xs
  | _ => true
termination_by structural v => v

def sanitaryListB : List JVal → Bool
  | [] => true
  | x :: xs => sanitary_keys x && sanitaryListB xs
termination_by structural l => l

def sanitaryEntriesB : List (String × JVal) → Bool
  | [] => true
  | (k, v) :: rest =>
      (decide (k ∈ supported_fields) &&
        (if k = "properties" then
          match v with
          | .obj pkvs => sanitaryPropsB pkvs
          | w => sanitary_keys w
         else sanitary_keys v)) &&
      sanitaryEntriesB rest
termination_by structural l => l

def sanitaryPropsB : List (String × JVal) → Bool
  | [] => true
  | (_, pv) :: rest => sanitary_keys pv && sanitaryPropsB rest
termination_by structural l => l

end

/-- The allowlist check for the value under a `properties` key: a dict is
a field-name map whose values are schemas; any other value is checked as
an ordinary schema value. -/
def sanitaryPropsValB : JVal → Bool
  | .obj pkvs => sanitaryPropsB pkvs
  | w => sanitary_keys w

/-- An array whose elements are all strings (the shape of a well-formed
`required` list). -/
def isStrArr : JVal → Bool
  | .arr l => l.all fun e => match e with | .str _ => true | _ => false
  | _ => false

/-- The pruning property of one dict: when it has both a `required` entry
and a dict-valued `properties` entry, `required` is a non-empty array of
strings naming existing properties. -/
def pruned_top (kvs : List (String × JVal)) : Bool :=
  match objGet kvs "required", objGet kvs "properties" with
  | some r, some (.obj p) =>
      match r with
      | .arr l =>
          !l.isEmpty &&
            l.all fun e =>
              match e with
              | .str s => objHasKey p s
              | _ => false
      | _ => false
  | _, _ => true

mutual

/-- The pruning property in every schema-position dict of a value
(the map under a `properties` key is a field-name map, not a schema). -/
def pruned_required : JVal → Bool
  | .obj kvs => pruned_top kvs && prunedEntriesB kvs
  | .arr xs => prunedListB xs
  | _ => true
termination_by structural v => v

def prunedListB : List JVal → Bool
  | [] => true
  | x :: xs => pruned_required x && prunedListB xs
termination_by structural l => l

def prunedEntriesB : List (String × JVal) → Bool
  | [] => true
  | (k, v) :: rest =>
      (if k = "properties" then
        match v with
        | .obj pkvs => prunedPropsB pkvs
        | w => pruned_required w
       else pruned_required v) &&
        prunedEntriesB rest
termination_by structural l => l

def prunedPropsB : List (String × JVal) → Bool
  | [] => true
  | (_, pv) :: rest => pruned_required pv && prunedPropsB rest
termination_by structural l => l

end

/-- The pruning check for the value under a `properties` key. -/
def prunedPropsValB : JVal → Bool
  | .obj pkvs => prunedPropsB pkvs
  | w => pruned_required w

mutual

/-- Well-formedness of sanitizer input assumed by the amended claims:
every `required` key anywhere holds an array of strings (the shape every
real schema produced by the model registry has). -/
def required_strings_only : JVal → Bool
  | .obj kvs => reqStrEntriesB kvs
  | .arr xs => reqStrListB xs
  | _ => true
termination_by structural v => v

def reqStrListB : List JVal → Bool
  | [] => true
  | x :: xs => required_strings_only x && reqStrListB xs
termination_by structural l => l

def reqStrEntriesB : List (String × JVal) → Bool
  | [] => true
  | (k, v) :: rest =>
      ((if k = "required" then isStrArr v else true) &&
        required_strings_only v) &&
      reqStrEntriesB rest
termination_by structural l => l

end

/-- Scenario B's shared sub-definition (an `Exercise` with a described
`name` property). -/
def c4_exercise_def : JVal :=
  .obj [("type", .str "object"),
    ("properties", .obj [("name",
      .obj [("type", .str "string"),
        ("description", .str "the exercise name")])]),
    ("description", .str "an exercise")]

/-- Scenario B exactly as the spec writes it: the reference path uses the
defs-key `defs` (`#/defs/Exercise`) and the document carries a `defs`
section. -/
def c4_schema_defs : JVal :=
  .obj [("type", .str "object"),
    ("properties", .obj [("exercises",
      .obj [("$ref", .str "#/defs/Exercise")])]),
    ("defs", .obj [("Exercise", c4_exercise_def)])]

/-- Scenario B with the only reference form the resolver handles:
`#/$defs/Exercise` under a `$defs` section. -/
def c4_schema_dollar : JVal :=
  .obj [("type", .str "object"),
    ("properties", .obj [("exercises",
      .obj [("$ref", .str "#/$defs/Exercise")])]),
    ("$defs", .obj [("Exercise", c4_exercise_def)])]

/-- A definition that itself references another definition. -/
def c4_defs_chain : List (String × JVal) :=
  [("Outer", .obj [("$ref", .str "#/$defs/Inner")]),
   ("Inner", .obj [("type", .str "string"), ("description", .str "d")])]

/-- C5 counterexample input: a `required` list carrying a dict element,
with no sibling `properties`. -/
def c5_schema : JVal :=
  .obj [("type", .str "object"),
    ("required", .arr [.obj [("foo", .num 1)]])]

/-- C6 counterexample input: the one declared property carries only a
`description`, and `required` names it. -/
def c6_schema : JVal :=
  .obj [("type", .str "object"),
    ("properties", .obj [("a", .obj [("description", .str "x")])]),
    ("required", .arr [.str "a"])]

/-- C10 counterexample input: like `c6_schema` with a different field
name. -/
def c10_schema : JVal :=
  .obj [("type", .str "object"),
    ("properties", .obj [("b", .obj [("description", .str "y")])]),
    ("required", .arr [.str "b"])]

/-- Pairwise-distinct keys of an assoc list (the shape of every dict
built by repeated `objSet` from an empty accumulator, mirroring a real
Python dict). -/
def nodupKeysB : List (String × JVal) → Bool
  | [] => true
  | (k, _) :: rest => !objHasKey rest k && nodupKeysB rest

/-- Stability of the `required`/`properties` post-processing: whenever a
dict carries both keys, `required` holds a non-empty array whose members
all test positively against the `properties` value, so the filter
reinstalls it unchanged. -/
def postStable (kvs : List (String × JVal)) : Prop :=
  ∀ r p, objGet kvs "required" = some r →
    objGet kvs "properties" = some p →
    ∃ l, r = arr l ∧ l ≠ [] ∧ ∀ e ∈ l, pyMem e p = some true

/-- Replayability of a `properties` value: a dict value is a non-empty
field-name map of truthy sanitizer fixed points; a non-dict value is a
non-`None` fixed point (the shape the wildcard branch stores). -/
def replayPropsVal : JVal → Prop
  | obj cp => cp ≠ [] ∧ nodupKeysB cp = true ∧
      ∀ p ∈ cp, clean_schema_for_gemini p.2 = some p.2 ∧
        pyTruthy p.2 = true
  | w => clean_schema_for_gemini w = some w ∧ w ≠ null

/-- Replayability of a `required` value: a list is copied verbatim; any
other value went through the wildcard branch. -/
def replayReqVal : JVal → Prop
  | arr _ => True
  | w => clean_schema_for_gemini w = some w ∧ w ≠ null ∧ w ≠ obj []

/-- One entry of a sanitizer output dict, as needed to replay the
cleaning loop on it without change. -/
def ReplayEntry (e : String × JVal) : Prop :=
  e.1 ∈ supported_fields ∧
  (if e.1 = "properties" then replayPropsVal e.2
   else if e.1 = "required" then replayReqVal e.2
   else clean_schema_for_gemini e.2 = some e.2 ∧ e.2 ≠ null ∧
     e.2 ≠ obj [])

end GeminiAnalyzer

/-! ## Dictionary lemmas. -/

namespace JVal

theorem objGet_objSet_self (kvs : List (String × JVal)) (k : String)
    (v : JVal) : objGet (objSet kvs k v) k = some v := by
  induction kvs with
  | nil => simp [objSet, objGet]
  | cons kv rest ih =>
      obtain ⟨k', v'⟩ := kv
      by_cases h : k' = k <;> simp [objSet, objGet, h, ih]

theorem objGet_objSet_ne (kvs : List (String × JVal)) (k k2 : String)
    (v : JVal) (h : k ≠ k2) :
    objGet (objSet kvs k v) k2 = objGet kvs k2 := by
  induction kvs with
  | nil => simp [objSet, objGet, h]
  | cons kv rest ih =>
      obtain ⟨k', v'⟩ := kv
      by_cases h1 : k' = k
      · subst h1; simp [objSet, objGet, h]
      · simp [objSet, objGet, h1, ih]

theorem objHasKey_iff_objGet (kvs : List (String × JVal)) (k : String) :
    objHasKey kvs k = true ↔ ∃ v, objGet kvs k = some v := by
  induction kvs with
  | nil => simp [objHasKey, objGet]
  | cons kv rest ih =>
      obtain ⟨k', v'⟩ := kv
      by_cases h : k' = k <;> simp [objHasKey, objGet, h, ih]

theorem objHasKey_objSet (kvs : List (String × JVal)) (k k2 : String)
    (v : JVal) :
    objHasKey (objSet kvs k v) k2 = true ↔
      k2 = k ∨ objHasKey kvs k2 = true := by
  by_cases h : k = k2
  · subst h
    simp [objHasKey_iff_objGet, objGet_objSet_self]
  · rw [objHasKey_iff_objGet, objGet_objSet_ne kvs k k2 v h,
      ← objHasKey_iff_objGet]
    have h2 : k2 ≠ k := fun hh => h hh.symm
    simp [h2]

theorem objHasKey_objUpdate (d e : List (String × JVal)) (k : String)
    (h : objHasKey d k = true) : objHasKey (objUpdate d e) k = true := by
  induction e generalizing d with
  | nil => simpa [objUpdate] using h
  | cons kv rest ih =>
      obtain ⟨k', v'⟩ := kv
      simp only [objUpdate]
      exact ih _ ((objHasKey_objSet d k' k v').2 (Or.inr h))

theorem objGet_objDel_ne (kvs : List (String × JVal)) (k k2 : String)
    (h : k ≠ k2) : objGet (objDel kvs k) k2 = objGet kvs k2 := by
  induction kvs with
  | nil => simp [objDel]
  | cons kv rest ih =>
      obtain ⟨k', v'⟩ := kv
      by_cases h1 : k' = k
      · subst h1
        have h2 : k' ≠ k2 := h
        simp [objDel, objGet, h2, ih]
      · by_cases h2 : k' = k2 <;>
          simp [objDel, objGet, h1, h2, ih, Ne.symm h]

theorem objGet_objDel_self (kvs : List (String × JVal)) (k : String) :
    objGet (objDel kvs k) k = none := by
  induction kvs with
  | nil => simp [objDel, objGet]
  | cons kv rest ih =>
      obtain ⟨k', v'⟩ := kv
      by_cases h1 : k' = k
      · simpa [objDel, h1] using ih
      · simpa [objDel, objGet, h1] using ih

/-- Re-assigning the value a key already has leaves the dict unchanged. -/
theorem objSet_eq_self (kvs : List (String × JVal)) (k : String) (v : JVal)
    (h : objGet kvs k = some v) : objSet kvs k v = kvs := by
  induction kvs with
  | nil => simp [objGet] at h
  | cons kv rest ih =>
      obtain ⟨k', v'⟩ := kv
      by_cases h1 : k' = k
      · subst h1
        have h' : v' = v := by simpa [objGet] using h
        subst h'
        simp [objSet]
      · simp only [objGet, if_neg h1] at h
        simp [objSet, h1, ih h]

/-- Setting a key that is absent appends the entry. -/
theorem objSet_append (kvs : List (String × JVal)) (k : String) (v : JVal)
    (h : objHasKey kvs k = false) : objSet kvs k v = kvs ++ [(k, v)] := by
  induction kvs with
  | nil => simp [objSet]
  | cons kv rest ih =>
      obtain ⟨k', v'⟩ := kv
      simp only [objHasKey, Bool.or_eq_false_iff, decide_eq_false_iff_not] at h
      simp [objSet, h.1, ih h.2]

theorem mem_objSet (kvs : List (String × JVal)) (k : String) (v : JVal) :
    ∀ e ∈ objSet kvs k v, e ∈ kvs ∨ e = (k, v) := by
  induction kvs with
  | nil => intro e he; simp [objSet] at he; simp [he]
  | cons kv rest ih =>
      obtain ⟨k', v'⟩ := kv
      intro e he
      by_cases h1 : k' = k
      · subst h1
        rw [show objSet ((k', v') :: rest) k' v = (k', v) :: rest from by
          simp [objSet]] at he
        rcases List.mem_cons.1 he with rfl | hmem
        · right; rfl
        · left; exact List.mem_cons_of_mem _ hmem
      · rw [show objSet ((k', v') :: rest) k v = (k', v') :: objSet rest k v
          from by simp [objSet, h1]] at he
        rcases List.mem_cons.1 he with rfl | hmem
        · left; exact List.mem_cons_self _ _
        · rcases ih e hmem with hh | hh
          · left; exact List.mem_cons_of_mem _ hh
          · right; exact hh

end JVal

/-! ## Stage lemmas about the extraction pipeline. -/

namespace GeminiAnalyzer

open JVal

/-- The exercises cleanup rewrites values in place: the key sequence of
the mapping is unchanged. -/
theorem cleanup_pass_keys (fields : List String) :
    ∀ kvs out, cleanup_pass fields kvs = some out →
      out.map Prod.fst = kvs.map Prod.fst := by
  intro kvs
  induction kvs with
  | nil => intro out h; simp [cleanup_pass] at h; simp [← h]
  | cons kv rest ih =>
      obtain ⟨k, v⟩ := kv
      intro out h
      simp only [cleanup_pass, Option.bind_eq_bind, Option.bind_eq_some,
        Option.pure_def, Option.some.injEq] at h
      obtain ⟨v', _, rest', hrest, h3⟩ := h
      subst h3
      simp [ih rest' hrest]

theorem cleanup_value_ne (fields : List String) (k : String) (v : JVal)
    (hk : k ≠ "exercises") : cleanup_value fields k v = some v := by
  have hne : ¬(k ∈ fields ∧ k = "exercises") := fun hc => hk hc.2
  simp [cleanup_value, hne]

/-- The exercises cleanup leaves every entry whose key is not
`"exercises"` untouched. -/
theorem cleanup_pass_objGet_ne (fields : List String) :
    ∀ kvs out, cleanup_pass fields kvs = some out →
      ∀ k, k ≠ "exercises" → objGet out k = objGet kvs k := by
  intro kvs
  induction kvs with
  | nil => intro out h k _; simp [cleanup_pass] at h; simp [← h]
  | cons kv rest ih =>
      obtain ⟨k', v⟩ := kv
      intro out h k hk
      simp only [cleanup_pass, Option.bind_eq_bind, Option.bind_eq_some,
        Option.pure_def, Option.some.injEq] at h
      obtain ⟨v', hv', rest', hrest, h3⟩ := h
      subst h3
      by_cases he : k' = k
      · subst he
        have hv : v' = v := by
          rw [cleanup_value_ne fields k' v hk] at hv'
          exact (Option.some.injEq _ _ ▸ hv').symm
        simp [objGet, hv]
      · simp [objGet, he, ih rest' hrest k hk]

theorem merge_extra_objGet_ne (mapped1 kvs extra : List (String × JVal))
    (k : String) (hk : k ≠ "additional_context") :
    objGet (merge_extra mapped1 kvs extra).1 k = objGet mapped1 k := by
  have hk' : "additional_context" ≠ k := fun hh => hk hh.symm
  simp only [merge_extra]
  split
  · rfl
  · split <;> simp [objGet_objSet_ne _ _ _ _ hk']

theorem apply_workout_defaults_objGet_ne (mc : ModelClass)
    (mapped2 : List (String × JVal)) (k : String)
    (h1 : k ≠ "estimated_duration_minutes") (h2 : k ≠ "difficulty_level") :
    objGet (apply_workout_defaults mc mapped2) k = objGet mapped2 k := by
  have h1' : "estimated_duration_minutes" ≠ k := fun hh => h1 hh.symm
  have h2' : "difficulty_level" ≠ k := fun hh => h2 hh.symm
  simp only [apply_workout_defaults]
  split
  · split <;> split <;>
      simp [objGet_objSet_ne _ _ _ _ h1', objGet_objSet_ne _ _ _ _ h2']
  · rfl

/-- The forced category survives every later assignment of `reconcile`:
the reconciled kwargs always carry the class's own literal. -/
theorem reconcile_category (mc : ModelClass) (kvs : List (String × JVal)) :
    objGet (reconcile mc kvs).1 "category" =
      some (.str (category_map mc)) := by
  simp only [reconcile]
  rw [apply_workout_defaults_objGet_ne _ _ _ (by decide) (by decide),
    merge_extra_objGet_ne _ _ _ _ (by decide), objGet_objSet_self]

theorem objHasKey_exists_mem (kvs : List (String × JVal)) (k : String)
    (h : objHasKey kvs k = true) : ∃ v, (k, v) ∈ kvs := by
  induction kvs with
  | nil => simp [objHasKey] at h
  | cons kv rest ih =>
      obtain ⟨k', v'⟩ := kv
      simp only [objHasKey, Bool.or_eq_true, decide_eq_true_eq] at h
      rcases h with h | h
      · exact ⟨v', by simp [h]⟩
      · obtain ⟨v, hv⟩ := ih h
        exact ⟨v, List.mem_cons_of_mem _ hv⟩

theorem format_copy_step_mono (acc : List (String × JVal))
    (kv : String × JVal) (k : String) (h : objHasKey acc k = true) :
    objHasKey (format_copy_step acc kv) k = true := by
  obtain ⟨k', v'⟩ := kv
  simp only [format_copy_step]
  split
  · split
    · split
      · exact h
      · exact (objHasKey_objSet acc k' k _).2 (Or.inr h)
    · exact (objHasKey_objSet acc k' k _).2 (Or.inr h)
  · split
    · exact h
    · exact (objHasKey_objSet acc k' k _).2 (Or.inr h)

theorem format_copy_step_self (acc : List (String × JVal))
    (k : String) (v : JVal) :
    objHasKey (format_copy_step acc (k, v)) k = true := by
  simp only [format_copy_step]
  split
  · split
    · split
      · assumption
      · exact (objHasKey_objSet acc k k _).2 (Or.inl rfl)
    · exact (objHasKey_objSet acc k k _).2 (Or.inl rfl)
  · split
    · assumption
    · exact (objHasKey_objSet acc k k _).2 (Or.inl rfl)

theorem format_fold_mono (kvs : List (String × JVal)) :
    ∀ acc k, objHasKey acc k = true →
      objHasKey (kvs.foldl format_copy_step acc) k = true := by
  induction kvs with
  | nil => intro acc k h; simpa using h
  | cons kv rest ih =>
      intro acc k h
      simp only [List.foldl_cons]
      exact ih _ k (format_copy_step_mono acc kv k h)

theorem format_fold_covers (kvs : List (String × JVal)) :
    ∀ acc k v, (k, v) ∈ kvs →
      objHasKey (kvs.foldl format_copy_step acc) k = true := by
  induction kvs with
  | nil => intro acc k v h; simp at h
  | cons kv rest ih =>
      intro acc k v h
      simp only [List.foldl_cons]
      rcases List.mem_cons.1 h with rfl | hmem
      · exact format_fold_mono rest _ k (format_copy_step_self acc k v)
      · exact ih _ k v hmem

/-- Losslessness of the fallback formatter: every key of the raw mapping
is a key of the formatted output. -/
theorem format_generic_data_keys (kvs : List (String × JVal))
    (mc : ModelClass) (out : List (String × JVal))
    (h : format_generic_data (.obj kvs) mc = some out) :
    ∀ k, objHasKey kvs k = true → objHasKey out k = true := by
  intro k hk
  obtain ⟨v, hmem⟩ := objHasKey_exists_mem kvs k hk
  have hout : out =
      objSet (objSet (kvs.foldl format_copy_step
        (match firstTruthyHit kvs items_variations with
         | some x => objSet
            (match firstTruthyHit kvs description_variations with
             | some x2 => objSet
                (match firstTruthyHit kvs title_variations with
                 | some x3 => objSet ([] : List (String × JVal)) "title" x3
                 | none => ([] : List (String × JVal))) "description" x2
             | none =>
                (match firstTruthyHit kvs title_variations with
                 | some x3 => objSet ([] : List (String × JVal)) "title" x3
                 | none => ([] : List (String × JVal)))) "items" x
         | none =>
            (match firstTruthyHit kvs description_variations with
             | some x2 => objSet
                (match firstTruthyHit kvs title_variations with
                 | some x3 => objSet ([] : List (String × JVal)) "title" x3
                 | none => ([] : List (String × JVal))) "description" x2
             | none =>
                (match firstTruthyHit kvs title_variations with
                 | some x3 => objSet ([] : List (String × JVal)) "title" x3
                 | none => ([] : List (String × JVal))))))
        "_original_category" (.str (class_name mc)))
        "_fallback_reason" (.str "Field name mismatch or validation error") := by
    simpa [format_generic_data] using h.symm
  subst hout
  apply (objHasKey_objSet _ _ _ _).2
  right
  apply (objHasKey_objSet _ _ _ _).2
  right
  exact format_fold_covers kvs _ k v hmem

theorem merge_mapped_context_mono (mapped3 formatted0 formatted1 :
    List (String × JVal))
    (h : merge_mapped_context mapped3 formatted0 = some formatted1) :
    ∀ k, objHasKey formatted0 k = true → objHasKey formatted1 k = true := by
  intro k hk
  have hstep : ∀ fd : List (String × JVal),
      (∀ k2, objHasKey formatted0 k2 = true → objHasKey fd k2 = true) →
      (fd = if objHasKey formatted0 "additional_context" then formatted0
            else objSet formatted0 "additional_context" (.obj [])) →
      True := fun _ _ _ => trivial
  clear hstep
  simp only [merge_mapped_context] at h
  split at h
  · split at h
    · split at h
      · simp only [Option.map_eq_some'] at h
        obtain ⟨c', _, h2⟩ := h
        subst h2
        apply (objHasKey_objSet _ _ _ _).2
        right
        split
        · exact hk
        · exact (objHasKey_objSet _ _ _ _).2 (Or.inr hk)
      · cases h
        apply (objHasKey_objSet _ _ _ _).2
        right
        split
        · exact hk
        · exact (objHasKey_objSet _ _ _ _).2 (Or.inr hk)
      · cases h
        split
        · exact hk
        · exact (objHasKey_objSet _ _ _ _).2 (Or.inr hk)
    · cases h; exact hk
  · cases h; exact hk

theorem merge_extra_context_mono (extra formatted1 : List (String × JVal)) :
    ∀ k, objHasKey formatted1 k = true →
      objHasKey (merge_extra_context extra formatted1) k = true := by
  intro k hk
  simp only [merge_extra_context]
  split
  · exact hk
  · split
    · apply (objHasKey_objSet _ _ _ _).2
      right
      split
      · exact hk
      · exact (objHasKey_objSet _ _ _ _).2 (Or.inr hk)
    · apply (objHasKey_objSet _ _ _ _).2
      right
      split
      · exact hk
      · exact (objHasKey_objSet _ _ _ _).2 (Or.inr hk)
    · split
      · exact hk
      · exact (objHasKey_objSet _ _ _ _).2 (Or.inr hk)

/-- Inverting a successful `GenericExtraction` construction: the category
argument was the string stored, and `raw_data` is stored as passed. -/
theorem genericExtractionInit_eq (cat t d u q r : JVal)
    (g : GenericExtraction)
    (h : genericExtractionInit cat t d u q r = some g) :
    cat = .str g.category ∧ r = .obj g.raw_data := by
  simp only [genericExtractionInit] at h
  rcases Option.bind_eq_some.1 h with ⟨c, hc, h2⟩
  rcases Option.bind_eq_some.1 h2 with ⟨t', ht, h3⟩
  rcases Option.bind_eq_some.1 h3 with ⟨d', hd, h4⟩
  rcases Option.bind_eq_some.1 h4 with ⟨u', hu, h5⟩
  rcases Option.bind_eq_some.1 h5 with ⟨q', hq, h6⟩
  rcases Option.map_eq_some'.1 h6 with ⟨rd, hr, h7⟩
  subst h7
  constructor
  · cases cat <;> simp_all [reqStrField]
  · cases r <;> simp_all [rawField]

/-- A numeric confidence score outside `[0, 1]` makes the
`GenericExtraction` constructor raise (models/base.py:83-88): no
clamping happens anywhere on the fallback path. -/
theorem genericExtractionInit_conf_fail (cat t d u r : JVal) (q : Rat)
    (hq : ¬(0 ≤ q ∧ q ≤ 1)) :
    genericExtractionInit cat t d u (.num q) r = none := by
  have hconf : confField (.num q) = none := by simp [confField, hq]
  simp only [genericExtractionInit, hconf]
  cases reqStrField cat <;>
    cases optStrField t <;>
      cases optStrField d <;> cases optStrField u <;> simp

theorem build_generic_ne_strict (mc : ModelClass)
    (mapped3 extra kvs2 d : List (String × JVal)) :
    build_generic mc mapped3 extra kvs2 ≠ .strict d := by
  simp only [build_generic]
  split
  · simp
  · split
    · simp
    · split <;> simp

/-- Inverting a fallback that produced a generic record: its category
string comes from the reconciled `category` entry, and its `raw_data`
keys cover the raw mapping's keys. -/
theorem build_generic_generic (mc : ModelClass)
    (mapped3 extra kvs2 : List (String × JVal)) (g : GenericExtraction)
    (h : build_generic mc mapped3 extra kvs2 = .generic g) :
    (objGet mapped3 "category").getD (.str "unknown") = .str g.category ∧
      ∀ k, objHasKey kvs2 k = true → objHasKey g.raw_data k = true := by
  unfold build_generic at h
  cases hf0 : format_generic_data (JVal.obj kvs2) mc with
  | none => rw [hf0] at h; cases h
  | some f0 =>
      rw [hf0] at h
      dsimp only at h
      cases hf1 : merge_mapped_context mapped3 f0 with
      | none => rw [hf1] at h; cases h
      | some f1 =>
          rw [hf1] at h
          dsimp only at h
          split at h
          · rename_i g' hg
            cases h
            obtain ⟨hcat, hraw⟩ := genericExtractionInit_eq _ _ _ _ _ _ _ hg
            refine ⟨hcat, ?_⟩
            intro k hk
            have h0 : objHasKey f0 k = true :=
              format_generic_data_keys kvs2 mc f0 hf0 k hk
            have h1 : objHasKey f1 k = true :=
              merge_mapped_context_mono mapped3 f0 f1 hf1 k h0
            have h2 : objHasKey (merge_extra_context extra f1) k = true :=
              merge_extra_context_mono extra f1 k h1
            have : merge_extra_context extra f1 = g.raw_data := by
              simpa using hraw
            rwa [this] at h2
          · cases h

theorem objHasKey_iff_mem_fst (kvs : List (String × JVal)) (k : String) :
    objHasKey kvs k = true ↔ k ∈ kvs.map Prod.fst := by
  induction kvs with
  | nil => simp [objHasKey]
  | cons kv rest ih =>
      obtain ⟨k', v'⟩ := kv
      simp only [objHasKey, Bool.or_eq_true, decide_eq_true_eq, List.map_cons,
        List.mem_cons, ih]
      constructor
      · rintro (h | h)
        · exact Or.inl h.symm
        · exact Or.inr h
      · rintro (h | h)
        · exact Or.inl h.symm
        · exact Or.inr h

theorem objHasKey_eq_of_map_fst (l1 l2 : List (String × JVal))
    (h : l1.map Prod.fst = l2.map Prod.fst) (k : String) :
    objHasKey l1 k = objHasKey l2 k := by
  have hiff : objHasKey l1 k = true ↔ objHasKey l2 k = true := by
    rw [objHasKey_iff_mem_fst, objHasKey_iff_mem_fst, h]
  cases hb : objHasKey l2 k with
  | true => exact hiff.2 hb
  | false =>
      cases ha : objHasKey l1 k with
      | false => rfl
      | true => exact absurd (hb ▸ hiff.1 ha) (by simp)

theorem merge_extra_kvs_keys (mapped1 kvs extra : List (String × JVal))
    (k : String) (h : objHasKey kvs k = true) :
    objHasKey (merge_extra mapped1 kvs extra).2 k = true := by
  simp only [merge_extra]
  split
  · exact h
  · split
    · exact (objHasKey_objSet _ _ _ _).2 (Or.inr h)
    · exact h
    · exact h

theorem reconcile_kvs2_keys (mc : ModelClass) (kvs : List (String × JVal))
    (k : String) (h : objHasKey kvs k = true) :
    objHasKey (reconcile mc kvs).2.2 k = true := by
  simp only [reconcile]
  exact merge_extra_kvs_keys _ _ _ k h

theorem normalize_item_step_mono (acc : List (String × JVal))
    (kv : String × JVal) (k : String) (h : objHasKey acc k = true) :
    objHasKey (normalize_item_step acc kv) k = true := by
  simp only [normalize_item_step]
  split <;> exact (objHasKey_objSet _ _ _ _).2 (Or.inr h)

theorem normalize_item_fold_mono (ikvs : List (String × JVal)) :
    ∀ acc k, objHasKey acc k = true →
      objHasKey (ikvs.foldl normalize_item_step acc) k = true := by
  induction ikvs with
  | nil => intro acc k h; simpa using h
  | cons kv rest ih =>
      intro acc k h
      simp only [List.foldl_cons]
      exact ih _ k (normalize_item_step_mono acc kv k h)

/-- Per-item losslessness of the key normalization: an original item key
survives under its own name, or under `"name"` when it is one of the
normalized aliases. -/
theorem normalize_item_fields_covers (ikvs : List (String × JVal)) :
    ∀ k v, (k, v) ∈ ikvs →
      objHasKey (normalize_item_fields ikvs)
        (if k ∈ item_key_aliases then "name" else k) = true := by
  have main : ∀ (l : List (String × JVal)) acc k v, (k, v) ∈ l →
      objHasKey (l.foldl normalize_item_step acc)
        (if k ∈ item_key_aliases then "name" else k) = true := by
    intro l
    induction l with
    | nil => intro acc k v h; simp at h
    | cons kv rest ih =>
        intro acc k v h
        simp only [List.foldl_cons]
        rcases List.mem_cons.1 h with rfl | hmem
        · by_cases hal : k ∈ item_key_aliases
          · rw [if_pos hal]
            apply normalize_item_fold_mono
            have hs : normalize_item_step acc (k, v) = objSet acc "name" v := by
              simp [normalize_item_step, hal]
            rw [hs]
            exact (objHasKey_objSet _ _ _ _).2 (Or.inl rfl)
          · rw [if_neg hal]
            apply normalize_item_fold_mono
            have hs : normalize_item_step acc (k, v) = objSet acc k v := by
              simp [normalize_item_step, hal]
            rw [hs]
            exact (objHasKey_objSet _ _ _ _).2 (Or.inl rfl)
        · exact ih _ k v hmem
  intro k v h
  exact main ikvs [] k v h

theorem foldl_objSet_append (l : List (String × JVal)) :
    ∀ acc, (∀ k ∈ l.map Prod.fst, objHasKey acc k = false) →
      (l.map Prod.fst).Nodup →
      l.foldl (fun a kv => objSet a kv.1 kv.2) acc = acc ++ l := by
  induction l with
  | nil => intro acc _ _; simp
  | cons kv rest ih =>
      obtain ⟨k, v⟩ := kv
      intro acc habs hnodup
      simp only [List.foldl_cons]
      have hk : objHasKey acc k = false := habs k (by simp)
      rw [objSet_append acc k v hk]
      have hnd : (rest.map Prod.fst).Nodup := by
        simpa using hnodup.of_cons
      have habs2 : ∀ k2 ∈ rest.map Prod.fst,
          objHasKey (acc ++ [(k, v)]) k2 = false := by
        intro k2 hk2
        have hne : k2 ≠ k := by
          intro hkk
          subst hkk
          exact (List.nodup_cons.1 (by simpa using hnodup)).1 hk2
        have h1 : objHasKey acc k2 = false := habs k2 (by simp [hk2])
        have : objHasKey (acc ++ [(k, v)]) k2 = true →
            k2 = k ∨ objHasKey acc k2 = true := by
          intro ht
          rw [← objSet_append acc k v hk] at ht
          exact (objHasKey_objSet acc k k2 v).1 ht
        cases hres : objHasKey (acc ++ [(k, v)]) k2 with
        | false => rfl
        | true =>
            rcases this hres with h | h
            · exact absurd h hne
            · rw [h1] at h; cases h
      rw [ih (acc ++ [(k, v)]) habs2 hnd]
      simp

/-- `dict(pairs)` over unique keys keeps the pairs as they are. -/
theorem toDict_eq_self (l : List (String × JVal))
    (hnodup : (l.map Prod.fst).Nodup) : toDict l = l := by
  have := foldl_objSet_append l [] (by intro k _; simp [objHasKey]) hnodup
  simpa [toDict] using this

theorem objGet_filter (P : String × JVal → Bool) :
    ∀ (l : List (String × JVal)) (k : String) (v : JVal),
      objGet l k = some v → P (k, v) = true →
      objGet (l.filter P) k = some v := by
  intro l
  induction l with
  | nil => intro k v h; simp [objGet] at h
  | cons kv rest ih =>
      obtain ⟨k', v'⟩ := kv
      intro k v h hP
      by_cases hkk : k' = k
      · subst hkk
        have hv : v' = v := by simpa [objGet] using h
        subst hv
        simp [List.filter_cons, hP, objGet]
      · simp only [objGet, if_neg hkk] at h
        simp only [List.filter_cons]
        split
        · simp [objGet, hkk, ih k v h hP]
        · exact ih k v h hP

theorem filter_keys_nodup (P : String × JVal → Bool)
    (l : List (String × JVal)) (hnodup : (l.map Prod.fst).Nodup) :
    ((l.filter P).map Prod.fst).Nodup :=
  ((l.filter_sublist).map Prod.fst).nodup hnodup

/-- A `"confidence_score"` entry of the raw mapping reaches the
reconciled kwargs unchanged (only `exercises`, `category`,
`additional_context` and the two workout defaults are ever touched). -/
theorem reconcile_confidence (mc : ModelClass) (kvs : List (String × JVal))
    (q : Rat) (hnodup : (kvs.map Prod.fst).Nodup)
    (hconf : objGet kvs "confidence_score" = some (.num q)) :
    objGet (reconcile mc kvs).1 "confidence_score" = some (.num q) := by
  simp only [reconcile]
  rw [apply_workout_defaults_objGet_ne _ _ _ (by decide) (by decide),
    merge_extra_objGet_ne _ _ _ _ (by decide),
    objGet_objSet_ne _ _ _ _ (by decide)]
  have hP : (decide ("confidence_score" ∈ model_fields mc)) = true := by
    cases mc <;> decide
  have hfil := objGet_filter (fun kv => decide (kv.1 ∈ model_fields mc)) kvs
    "confidence_score" (.num q) hconf hP
  rw [toDict_eq_self _ (filter_keys_nodup _ kvs hnodup)]
  exact hfil

/-- If the fallback reaches `GenericExtraction` construction with a
numeric out-of-range confidence, the whole fallback errs: every failure
exit of the fallback branch reports "Failed to create even generic
extraction". -/
theorem build_generic_conf_fail (mc : ModelClass)
    (mapped3 extra kvs2 : List (String × JVal)) (q : Rat)
    (hconf : objGet mapped3 "confidence_score" = some (.num q))
    (hq : ¬(0 ≤ q ∧ q ≤ 1)) :
    build_generic mc mapped3 extra kvs2 = .failure .genericFailed := by
  unfold build_generic
  cases format_generic_data (JVal.obj kvs2) mc with
  | none => rfl
  | some f0 =>
      dsimp only
      cases merge_mapped_context mapped3 f0 with
      | none => rfl
      | some f1 =>
          dsimp only
          rw [hconf]
          simp only [Option.getD_some]
          rw [genericExtractionInit_conf_fail _ _ _ _ _ q hq]

theorem stripChars_subset (l : List Char) :
    ∀ c ∈ stripChars l, c ∈ l := by
  intro c hc
  simp only [stripChars, List.mem_reverse] at hc
  have h1 := (List.dropWhile_sublist _).subset hc
  rw [List.mem_reverse] at h1
  exact (List.dropWhile_sublist _).subset h1

theorem firstLineChars_no_newline (l : List Char) :
    ∀ c ∈ firstLineChars l, c ≠ '\n' := by
  intro c hc
  have := List.mem_takeWhile_imp hc
  simpa using this

/-- The truncation helper always returns at most 50 characters. -/
theorem truncate_exercise_name_le (s : String) :
    (truncate_exercise_name s).length ≤ 50 := by
  simp only [truncate_exercise_name]
  split
  · show (String.mk _).length ≤ 50
    have : (String.mk ((py_strip (first_line_of s)).toList.take 50)).length =
        ((py_strip (first_line_of s)).toList.take 50).length := rfl
    rw [this, List.length_take]
    exact Nat.min_le_left _ _
  · omega

/-- The truncation helper never returns a newline: it keeps only
characters of the first line. -/
theorem truncate_exercise_name_no_newline (s : String) :
    '\n' ∉ (truncate_exercise_name s).toList := by
  intro hmem
  have hsub : '\n' ∈ (py_strip (first_line_of s)).toList := by
    simp only [truncate_exercise_name] at hmem
    split at hmem
    · exact List.take_subset _ _ hmem
    · exact hmem
  have hfl : '\n' ∈ firstLineChars s.toList := by
    have : (py_strip (first_line_of s)).toList =
        stripChars (first_line_of s).toList := rfl
    rw [this] at hsub
    have h2 := stripChars_subset _ _ hsub
    have : (first_line_of s).toList = firstLineChars s.toList := rfl
    rwa [this] at h2
  exact firstLineChars_no_newline s.toList '\n' hfl rfl

/-! ### Invariants of sanitizer output (towards the allowlist and
required-pruning properties). -/

/-- A sanitizer output value in schema position: allowlisted keys and
pruned `required` lists everywhere. -/
def GoodVal (v : JVal) : Prop :=
  sanitary_keys v = true ∧ pruned_required v = true

/-- One entry of a cleaned dict: the key is allowlisted, the value is
good (for a `properties` key: good as a field-name map), and a
`required` value is an array of strings. -/
def GoodEntry (e : String × JVal) : Prop :=
  e.1 ∈ supported_fields ∧
  (if e.1 = "properties" then
     sanitaryPropsValB e.2 = true ∧ prunedPropsValB e.2 = true
   else GoodVal e.2) ∧
  (e.1 = "required" → isStrArr e.2 = true)

def GoodEntries (L : List (String × JVal)) : Prop := ∀ e ∈ L, GoodEntry e

theorem objGet_mem : ∀ {L : List (String × JVal)} {k : String} {v : JVal},
    objGet L k = some v → (k, v) ∈ L := by
  intro L
  induction L with
  | nil => intro k v h; simp [objGet] at h
  | cons kv rest ih =>
      obtain ⟨k', v'⟩ := kv
      intro k v h
      by_cases hk : k' = k
      · subst hk
        have : v' = v := by simpa [objGet] using h
        subst this
        exact List.mem_cons_self _ _
      · simp only [objGet, if_neg hk] at h
        exact List.mem_cons_of_mem _ (ih h)

theorem mem_objDel : ∀ {L : List (String × JVal)} {k : String}
    {e : String × JVal}, e ∈ objDel L k → e ∈ L := by
  intro L
  induction L with
  | nil => intro k e h; simp [objDel] at h
  | cons kv rest ih =>
      obtain ⟨k', v'⟩ := kv
      intro k e h
      simp only [objDel] at h
      split at h
      · exact List.mem_cons_of_mem _ (ih h)
      · rcases List.mem_cons.1 h with rfl | hmem
        · exact List.mem_cons_self _ _
        · exact List.mem_cons_of_mem _ (ih hmem)

theorem GoodEntries_objSet {L : List (String × JVal)} {k : String}
    {v : JVal} (hL : GoodEntries L) (hv : GoodEntry (k, v)) :
    GoodEntries (objSet L k v) := by
  intro e he
  rcases mem_objSet L k v e he with h | h
  · exact hL e h
  · subst h; exact hv

theorem keep_good {acc : List (String × JVal)} {k : String} {cv : JVal}
    (hacc : GoodEntries acc) (hkv : GoodEntry (k, cv)) :
    GoodEntries (keep_cleaned_value acc k cv) := by
  unfold keep_cleaned_value
  split
  · exact hacc
  · exact GoodEntries_objSet hacc hkv

theorem sanitaryPropsB_of_good {M : List (String × JVal)}
    (h : ∀ p ∈ M, sanitary_keys p.2 = true) : sanitaryPropsB M = true := by
  induction M with
  | nil => rfl
  | cons p rest ih =>
      obtain ⟨pn, pv⟩ := p
      simp only [sanitaryPropsB, Bool.and_eq_true]
      exact ⟨h _ (List.mem_cons_self _ _),
        ih fun q hq => h q (List.mem_cons_of_mem _ hq)⟩

theorem prunedPropsB_of_good {M : List (String × JVal)}
    (h : ∀ p ∈ M, pruned_required p.2 = true) : prunedPropsB M = true := by
  induction M with
  | nil => rfl
  | cons p rest ih =>
      obtain ⟨pn, pv⟩ := p
      simp only [prunedPropsB, Bool.and_eq_true]
      exact ⟨h _ (List.mem_cons_self _ _),
        ih fun q hq => h q (List.mem_cons_of_mem _ hq)⟩

theorem sanitaryPropsValB_eq (v : JVal) :
    sanitaryPropsValB v =
      match v with
      | JVal.obj pkvs => sanitaryPropsB pkvs
      | w => sanitary_keys w := by
  cases v <;> rfl

theorem prunedPropsValB_eq (v : JVal) :
    prunedPropsValB v =
      match v with
      | JVal.obj pkvs => prunedPropsB pkvs
      | w => pruned_required w := by
  cases v <;> rfl

theorem sanitaryEntriesB_cons (k : String) (v : JVal)
    (rest : List (String × JVal)) :
    sanitaryEntriesB ((k, v) :: rest) =
      ((decide (k ∈ supported_fields) &&
        (if k = "properties" then sanitaryPropsValB v
         else sanitary_keys v)) &&
       sanitaryEntriesB rest) := by
  cases v <;> rfl

theorem prunedEntriesB_cons (k : String) (v : JVal)
    (rest : List (String × JVal)) :
    prunedEntriesB ((k, v) :: rest) =
      ((if k = "properties" then prunedPropsValB v
        else pruned_required v) &&
       prunedEntriesB rest) := by
  cases v <;> rfl

theorem sanitaryEntriesB_of_good {L : List (String × JVal)}
    (h : GoodEntries L) : sanitaryEntriesB L = true := by
  induction L with
  | nil => rfl
  | cons e rest ih =>
      obtain ⟨k, v⟩ := e
      obtain ⟨h1, h2, _⟩ := h _ (List.mem_cons_self _ _)
      rw [sanitaryEntriesB_cons, Bool.and_eq_true, Bool.and_eq_true]
      refine ⟨⟨by simp [h1], ?_⟩,
        ih fun e he => h e (List.mem_cons_of_mem _ he)⟩
      by_cases hk : k = "properties"
      · rw [if_pos hk] at h2 ⊢
        exact h2.1
      · rw [if_neg hk] at h2 ⊢
        exact h2.1

theorem prunedEntriesB_of_good {L : List (String × JVal)}
    (h : GoodEntries L) : prunedEntriesB L = true := by
  induction L with
  | nil => rfl
  | cons e rest ih =>
      obtain ⟨k, v⟩ := e
      obtain ⟨_, h2, _⟩ := h _ (List.mem_cons_self _ _)
      rw [prunedEntriesB_cons, Bool.and_eq_true]
      refine ⟨?_, ih fun e he => h e (List.mem_cons_of_mem _ he)⟩
      by_cases hk : k = "properties"
      · rw [if_pos hk] at h2 ⊢
        exact h2.2
      · rw [if_neg hk] at h2 ⊢
        exact h2.2

theorem isStrArr_goodVal {v : JVal} (h : isStrArr v = true) : GoodVal v := by
  cases v with
  | arr l =>
      simp only [isStrArr, List.all_eq_true] at h
      constructor
      · show sanitaryListB l = true
        induction l with
        | nil => rfl
        | cons x rest ih =>
            have hx := h x (List.mem_cons_self _ _)
            cases x <;> simp_all [sanitaryListB, sanitary_keys]
      · show prunedListB l = true
        induction l with
        | nil => rfl
        | cons x rest ih =>
            have hx := h x (List.mem_cons_self _ _)
            cases x <;> simp_all [prunedListB, pruned_required]
  | null => simp [isStrArr] at h
  | bool b => simp [isStrArr] at h
  | num q => simp [isStrArr] at h
  | str s => simp [isStrArr] at h
  | obj kvs => simp [isStrArr] at h

theorem filterMem_spec : ∀ (elems : List JVal) (p : JVal)
    (out : List JVal), filterMem elems p = some out →
    ∀ e ∈ out, e ∈ elems ∧ pyMem e p = some true := by
  intro elems
  induction elems with
  | nil =>
      intro p out h e he
      simp only [filterMem, Option.some.injEq] at h
      subst h
      simp at he
  | cons x rest ih =>
      intro p out h e he
      simp only [filterMem, Option.bind_eq_bind, Option.bind_eq_some,
        Option.pure_def, Option.some.injEq] at h
      obtain ⟨b, hb, tail, htail, hout⟩ := h
      subst hout
      split at he
      · rcases List.mem_cons.1 he with rfl | hmem
        · rename_i hbtrue
          subst hbtrue
          exact ⟨List.mem_cons_self _ _, hb⟩
        · obtain ⟨h1, h2⟩ := ih p tail htail e hmem
          exact ⟨List.mem_cons_of_mem _ h1, h2⟩
      · obtain ⟨h1, h2⟩ := ih p tail htail e he
        exact ⟨List.mem_cons_of_mem _ h1, h2⟩

theorem postRequired_good {L out : List (String × JVal)}
    (hL : GoodEntries L) (h : postRequired L = some out) :
    GoodEntries out ∧ pruned_top out = true := by
  unfold postRequired at h
  cases hr : objGet L "required" with
  | none =>
      rw [hr] at h
      cases hp : objGet L "properties" with
      | none =>
          rw [hp] at h
          dsimp only at h
          cases h
          refine ⟨hL, ?_⟩
          unfold pruned_top
          rw [hr]
      | some p =>
          rw [hp] at h
          dsimp only at h
          cases h
          refine ⟨hL, ?_⟩
          unfold pruned_top
          rw [hr]
  | some r =>
      rw [hr] at h
      cases hp : objGet L "properties" with
      | none =>
          rw [hp] at h
          dsimp only at h
          cases h
          refine ⟨hL, ?_⟩
          unfold pruned_top
          rw [hr, hp]
      | some p =>
          rw [hp] at h
          dsimp only at h
          simp only [Option.bind_eq_bind, Option.bind_eq_some,
            Option.pure_def, Option.some.injEq] at h
          obtain ⟨elems, hel, valid, hval, hout⟩ := h
          have hreq : isStrArr r = true :=
            (hL _ (objGet_mem hr)).2.2 rfl
          have hstr : ∀ e ∈ elems, ∃ s, e = JVal.str s := by
            cases r with
            | arr l =>
                have hle : l = elems := by simpa [pyIterate] using hel
                subst hle
                intro e he
                simp only [isStrArr, List.all_eq_true] at hreq
                have := hreq e he
                cases e <;> simp_all
            | null => simp [isStrArr] at hreq
            | bool b => simp [isStrArr] at hreq
            | num q => simp [isStrArr] at hreq
            | str s => simp [isStrArr] at hreq
            | obj kvs => simp [isStrArr] at hreq
          have hvalid_str : ∀ e ∈ valid, ∃ s, e = JVal.str s ∧
              pyMem e p = some true := by
            intro e he
            obtain ⟨hmem, hpm⟩ := filterMem_spec elems p valid hval e he
            obtain ⟨s, hs⟩ := hstr e hmem
            exact ⟨s, hs, hpm⟩
          have hvalid_arr : isStrArr (.arr valid) = true := by
            simp only [isStrArr, List.all_eq_true]
            intro e he
            obtain ⟨s, hs, _⟩ := hvalid_str e he
            subst hs
            rfl
          by_cases hemp : valid.isEmpty
          · rw [if_pos hemp] at hout
            subst hout
            refine ⟨fun e he => hL e (mem_objDel he), ?_⟩
            unfold pruned_top
            rw [objGet_objDel_self]
          · rw [if_neg hemp] at hout
            subst hout
            constructor
            · refine GoodEntries_objSet hL ?_
              have hentry : GoodEntry ("required", JVal.arr valid) := by
                simp only [GoodEntry]
                refine ⟨by decide, ?_, fun _ => hvalid_arr⟩
                rw [if_neg (by decide : ¬("required" : String) = "properties")]
                exact isStrArr_goodVal hvalid_arr
              exact hentry
            · unfold pruned_top
              rw [objGet_objSet_self,
                objGet_objSet_ne _ _ _ _ (by decide), hp]
              cases p with
              | obj pkvs =>
                  simp only [Bool.and_eq_true, Bool.not_eq_true',
                    List.all_eq_true]
                  constructor
                  · simpa using hemp
                  · intro e he
                    obtain ⟨s, hs, hpm⟩ := hvalid_str e he
                    subst hs
                    simpa [pyMem] using hpm
              | null => rfl
              | bool b => rfl
              | num q => rfl
              | str s => rfl
              | arr xs => rfl

theorem sanitaryListB_of_good {ys : List JVal}
    (h : ∀ y ∈ ys, GoodVal y) : sanitaryListB ys = true := by
  induction ys with
  | nil => rfl
  | cons y rest ih =>
      simp only [sanitaryListB, Bool.and_eq_true]
      exact ⟨(h y (List.mem_cons_self _ _)).1,
        ih fun z hz => h z (List.mem_cons_of_mem _ hz)⟩

theorem prunedListB_of_good {ys : List JVal}
    (h : ∀ y ∈ ys, GoodVal y) : prunedListB ys = true := by
  induction ys with
  | nil => rfl
  | cons y rest ih =>
      simp only [prunedListB, Bool.and_eq_true]
      exact ⟨(h y (List.mem_cons_self _ _)).2,
        ih fun z hz => h z (List.mem_cons_of_mem _ hz)⟩

theorem reqStrEntriesB_member {M : List (String × JVal)}
    (h : reqStrEntriesB M = true) :
    ∀ e ∈ M, required_strings_only e.2 = true ∧
      (e.1 = "required" → isStrArr e.2 = true) := by
  induction M with
  | nil => intro e he; simp at he
  | cons kv rest ih =>
      obtain ⟨k, v⟩ := kv
      simp only [reqStrEntriesB, Bool.and_eq_true] at h
      intro e he
      rcases List.mem_cons.1 he with rfl | hmem
      · refine ⟨h.1.2, fun hk => ?_⟩
        have := h.1.1
        rwa [if_pos hk] at this
      · exact ih h.2 e hmem

theorem reqStrListB_member {xs : List JVal} (h : reqStrListB xs = true) :
    ∀ x ∈ xs, required_strings_only x = true := by
  induction xs with
  | nil => intro x hx; simp at hx
  | cons y rest ih =>
      simp only [reqStrListB, Bool.and_eq_true] at h
      intro x hx
      rcases List.mem_cons.1 hx with rfl | hmem
      · exact h.1
      · exact ih h.2 x hmem

theorem clean_preserves_not_obj {v t : JVal}
    (hv : ∀ kvs, v ≠ .obj kvs)
    (h : clean_schema_for_gemini v = some t) : ∀ kvs, t ≠ .obj kvs := by
  cases v with
  | obj kvs => exact absurd rfl (hv kvs)
  | arr xs =>
      simp only [clean_schema_for_gemini, Option.bind_eq_bind,
        Option.bind_eq_some, Option.pure_def, Option.some.injEq] at h
      obtain ⟨ys, _, hys⟩ := h
      subst hys
      intro kvs hk
      cases hk
  | null => cases h; intro kvs hk; cases hk
  | bool b => cases h; intro kvs hk; cases hk
  | num q => cases h; intro kvs hk; cases hk
  | str s => cases h; intro kvs hk; cases hk

theorem cleanList_good_aux :
    ∀ (xs : List JVal),
      (∀ x ∈ xs, ∀ t, clean_schema_for_gemini x = some t → GoodVal t) →
      ∀ ys, cleanList xs = some ys → ∀ y ∈ ys, GoodVal y := by
  intro xs
  induction xs with
  | nil =>
      intro _ ys h y hy
      simp only [cleanList, Option.pure_def, Option.some.injEq] at h
      subst h
      simp at hy
  | cons x rest ih =>
      intro hx ys h y hy
      simp only [cleanList, Option.bind_eq_bind, Option.bind_eq_some,
        Option.pure_def, Option.some.injEq] at h
      obtain ⟨cx, hcx, crest, hcrest, hys⟩ := h
      subst hys
      rcases List.mem_cons.1 hy with rfl | hmem
      · exact hx x (List.mem_cons_self _ _) y hcx
      · exact ih (fun z hz => hx z (List.mem_cons_of_mem _ hz)) crest
          hcrest y hmem

theorem cleanProps_good_aux :
    ∀ (pkvs : List (String × JVal)),
      (∀ p ∈ pkvs, ∀ t, clean_schema_for_gemini p.2 = some t → GoodVal t) →
      ∀ acc, (∀ e ∈ acc, GoodVal e.2) →
      ∀ out, cleanProps pkvs acc = some out → ∀ e ∈ out, GoodVal e.2 := by
  intro pkvs
  induction pkvs with
  | nil =>
      intro _ acc hacc out h
      simp only [cleanProps, Option.pure_def, Option.some.injEq] at h
      subst h
      exact hacc
  | cons p rest ih =>
      obtain ⟨pn, ps⟩ := p
      intro hp acc hacc out h
      simp only [cleanProps, Option.bind_eq_bind, Option.bind_eq_some] at h
      obtain ⟨cp, hcp, hrest⟩ := h
      have hcpGood : GoodVal cp := hp _ (List.mem_cons_self _ _) cp hcp
      refine ih (fun q hq => hp q (List.mem_cons_of_mem _ hq)) _ ?_ out hrest
      intro e he
      split at he
      · rcases mem_objSet acc pn cp e he with hmem | rfl
        · exact hacc e hmem
        · exact hcpGood
      · exact hacc e he

theorem prop_entry_obj_good {k : String} {cp : List (String × JVal)}
    (hk1 : k ∈ supported_fields) (hk2 : k = "properties")
    (hprops : ∀ e ∈ cp, GoodVal e.2) : GoodEntry (k, .obj cp) := by
  simp only [GoodEntry]
  refine ⟨hk1, ?_, fun hc => absurd (hk2.symm.trans hc) (by decide)⟩
  rw [if_pos hk2]
  constructor
  · show sanitaryPropsValB (.obj cp) = true
    simpa [sanitaryPropsValB] using
      sanitaryPropsB_of_good fun p hp => (hprops p hp).1
  · show prunedPropsValB (.obj cp) = true
    simpa [prunedPropsValB] using
      prunedPropsB_of_good fun p hp => (hprops p hp).2

theorem prop_entry_nonobj_good {k : String} {cv : JVal}
    (hk1 : k ∈ supported_fields) (hk2 : k = "properties")
    (hnotobj : ∀ kvs, cv ≠ .obj kvs) (hgv : GoodVal cv) :
    GoodEntry (k, cv) := by
  simp only [GoodEntry]
  refine ⟨hk1, ?_, fun hc => absurd (hk2.symm.trans hc) (by decide)⟩
  rw [if_pos hk2]
  cases cv with
  | obj kvs2 => exact absurd rfl (hnotobj kvs2)
  | null => exact ⟨hgv.1, hgv.2⟩
  | bool b => exact ⟨hgv.1, hgv.2⟩
  | num q => exact ⟨hgv.1, hgv.2⟩
  | str s => exact ⟨hgv.1, hgv.2⟩
  | arr xs => exact ⟨hgv.1, hgv.2⟩

theorem req_entry_good {k : String} {l : List JVal}
    (hk1 : k ∈ supported_fields) (hk2 : ¬k = "properties")
    (harr : isStrArr (.arr l) = true) : GoodEntry (k, .arr l) := by
  simp only [GoodEntry]
  exact ⟨hk1, by rw [if_neg hk2]; exact isStrArr_goodVal harr, fun _ => harr⟩

theorem nonprop_entry_good {k : String} {cv : JVal}
    (hk1 : k ∈ supported_fields) (hk2 : ¬k = "properties")
    (hk3 : ¬k = "required") (hgv : GoodVal cv) : GoodEntry (k, cv) := by
  simp only [GoodEntry]
  exact ⟨hk1, by rw [if_neg hk2]; exact hgv, fun hc => absurd hc hk3⟩

theorem cleanFields_cons_nonspecial {k : String} {v : JVal}
    {rest acc out : List (String × JVal)}
    (hk1 : k ∈ supported_fields) (hk2 : ¬k = "properties")
    (hk3 : ¬k = "required")
    (h : cleanFields ((k, v) :: rest) acc = some out) :
    ∃ cv, clean_schema_for_gemini v = some cv ∧
      cleanFields rest (keep_cleaned_value acc k cv) = some out := by
  cases v <;>
    (simp only [cleanFields] at h
     rw [if_pos hk1, if_neg hk2, if_neg hk3] at h
     simp only [Option.bind_eq_bind, Option.pure_def,
       Option.bind_eq_some, Option.some.injEq] at h
     obtain ⟨cv, hcv, acc', heq, hrun⟩ := h
     exact ⟨cv, hcv, by rw [heq]; exact hrun⟩)

theorem cleanFields_cons_unsupported {k : String} {v : JVal}
    {rest acc out : List (String × JVal)}
    (hk1 : ¬k ∈ supported_fields)
    (h : cleanFields ((k, v) :: rest) acc = some out) :
    cleanFields rest acc = some out := by
  cases v <;>
    (simp only [cleanFields] at h
     rw [if_neg hk1] at h
     simp only [Option.bind_eq_bind, Option.pure_def,
       Option.bind_eq_some, Option.some.injEq] at h
     obtain ⟨acc', heq, hrun⟩ := h
     rw [← heq] at hrun
     exact hrun)

theorem cleanFields_good_aux :
    ∀ (kvs : List (String × JVal)),
      (∀ u : JVal, sizeOf u < sizeOf kvs →
        required_strings_only u = true →
        ∀ t, clean_schema_for_gemini u = some t → GoodVal t) →
      reqStrEntriesB kvs = true →
      ∀ acc, GoodEntries acc →
      ∀ out, cleanFields kvs acc = some out → GoodEntries out := by
  intro kvs
  induction kvs with
  | nil =>
      intro _ _ acc hacc out h
      simp only [cleanFields, Option.pure_def, Option.some.injEq] at h
      subst h
      exact hacc
  | cons kv rest ih =>
      obtain ⟨k, v⟩ := kv
      intro H hreq acc hacc out h
      simp only [reqStrEntriesB, Bool.and_eq_true] at hreq
      obtain ⟨⟨hreq_arr, hreq_v⟩, hreq_rest⟩ := hreq
      have Hv : ∀ t, clean_schema_for_gemini v = some t → GoodVal t := by
        intro t ht
        refine H v ?_ hreq_v t ht
        simp only [List.cons.sizeOf_spec, Prod.mk.sizeOf_spec]
        omega
      have Hrest : ∀ u : JVal, sizeOf u < sizeOf rest →
          required_strings_only u = true →
          ∀ t, clean_schema_for_gemini u = some t → GoodVal t := by
        intro u hu
        refine H u ?_
        simp only [List.cons.sizeOf_spec]
        omega
      by_cases hk1 : k ∈ supported_fields
      · by_cases hk2 : k = "properties"
        · cases v with
          | obj pkvs =>
              simp only [cleanFields] at h
              rw [if_pos hk1, if_pos hk2] at h
              simp only [Option.bind_eq_bind, Option.pure_def,
                Option.bind_eq_some, Option.some.injEq] at h
              obtain ⟨cp, hcp, acc', heq, hrun⟩ := h
              have hprops : ∀ e ∈ cp, GoodVal e.2 := by
                refine cleanProps_good_aux pkvs ?_ []
                  (by intro e he; simp at he) cp hcp
                intro p hp t ht
                have hmem := reqStrEntriesB_member hreq_v p hp
                refine H p.2 ?_ hmem.1 t ht
                have h1 : sizeOf p.2 < sizeOf p := by
                  obtain ⟨a, b⟩ := p
                  simp only [Prod.mk.sizeOf_spec]
                  omega
                have h2 : sizeOf p < sizeOf pkvs :=
                  List.sizeOf_lt_of_mem hp
                simp only [List.cons.sizeOf_spec, Prod.mk.sizeOf_spec,
                  JVal.obj.sizeOf_spec]
                omega
              refine ih Hrest hreq_rest acc' ?_ out hrun
              subst heq
              split
              · exact hacc
              · exact GoodEntries_objSet hacc
                  (prop_entry_obj_good hk1 hk2 hprops)
          | null =>
              simp only [cleanFields] at h
              rw [if_pos hk1, if_pos hk2] at h
              simp only [Option.bind_eq_bind, Option.pure_def,
                Option.bind_eq_some, Option.some.injEq] at h
              obtain ⟨cv, hcv, acc', heq, hrun⟩ := h
              refine ih Hrest hreq_rest acc' ?_ out hrun
              subst heq
              exact keep_good hacc (prop_entry_nonobj_good hk1 hk2
                (clean_preserves_not_obj (by intro kvs hk; cases hk) hcv)
                (Hv cv hcv))
          | bool b =>
              simp only [cleanFields] at h
              rw [if_pos hk1, if_pos hk2] at h
              simp only [Option.bind_eq_bind, Option.pure_def,
                Option.bind_eq_some, Option.some.injEq] at h
              obtain ⟨cv, hcv, acc', heq, hrun⟩ := h
              refine ih Hrest hreq_rest acc' ?_ out hrun
              subst heq
              exact keep_good hacc (prop_entry_nonobj_good hk1 hk2
                (clean_preserves_not_obj (by intro kvs hk; cases hk) hcv)
                (Hv cv hcv))
          | num q =>
              simp only [cleanFields] at h
              rw [if_pos hk1, if_pos hk2] at h
              simp only [Option.bind_eq_bind, Option.pure_def,
                Option.bind_eq_some, Option.some.injEq] at h
              obtain ⟨cv, hcv, acc', heq, hrun⟩ := h
              refine ih Hrest hreq_rest acc' ?_ out hrun
              subst heq
              exact keep_good hacc (prop_entry_nonobj_good hk1 hk2
                (clean_preserves_not_obj (by intro kvs hk; cases hk) hcv)
                (Hv cv hcv))
          | str s =>
              simp only [cleanFields] at h
              rw [if_pos hk1, if_pos hk2] at h
              simp only [Option.bind_eq_bind, Option.pure_def,
                Option.bind_eq_some, Option.some.injEq] at h
              obtain ⟨cv, hcv, acc', heq, hrun⟩ := h
              refine ih Hrest hreq_rest acc' ?_ out hrun
              subst heq
              exact keep_good hacc (prop_entry_nonobj_good hk1 hk2
                (clean_preserves_not_obj (by intro kvs hk; cases hk) hcv)
                (Hv cv hcv))
          | arr xs =>
              simp only [cleanFields] at h
              rw [if_pos hk1, if_pos hk2] at h
              simp only [Option.bind_eq_bind, Option.pure_def,
                Option.bind_eq_some, Option.some.injEq] at h
              obtain ⟨cv, hcv, acc', heq, hrun⟩ := h
              refine ih Hrest hreq_rest acc' ?_ out hrun
              subst heq
              exact keep_good hacc (prop_entry_nonobj_good hk1 hk2
                (clean_preserves_not_obj (by intro kvs hk; cases hk) hcv)
                (Hv cv hcv))
        · by_cases hk3 : k = "required"
          · have harr := hreq_arr
            rw [if_pos hk3] at harr
            cases v with
            | arr l =>
                simp only [cleanFields] at h
                rw [if_pos hk1, if_neg hk2, if_pos hk3] at h
                simp only [Option.bind_eq_bind, Option.pure_def,
                  Option.bind_eq_some, Option.some.injEq] at h
                obtain ⟨acc', heq, hrun⟩ := h
                refine ih Hrest hreq_rest acc' ?_ out hrun
                subst heq
                exact GoodEntries_objSet hacc (req_entry_good hk1 hk2 harr)
            | null => simp [isStrArr] at harr
            | bool b => simp [isStrArr] at harr
            | num q => simp [isStrArr] at harr
            | str s => simp [isStrArr] at harr
            | obj kvs2 => simp [isStrArr] at harr
          · obtain ⟨cv, hcv, hrun⟩ := cleanFields_cons_nonspecial hk1 hk2 hk3 h
            refine ih Hrest hreq_rest _ ?_ out hrun
            exact keep_good hacc (nonprop_entry_good hk1 hk2 hk3 (Hv cv hcv))
      · exact ih Hrest hreq_rest acc hacc out
          (cleanFields_cons_unsupported hk1 h)

/-- Main invariant of the sanitizer: on any document whose `required`
lists are arrays of strings, a successful sanitization yields a value
with only allowlisted keys in schema positions and with pruned
`required` lists wherever a dict-valued `properties` sibling exists. -/
theorem clean_schema_good :
    ∀ (s : JVal), required_strings_only s = true →
      ∀ t, clean_schema_for_gemini s = some t → GoodVal t := by
  suffices H : ∀ (n : Nat) (s : JVal), sizeOf s ≤ n →
      required_strings_only s = true →
      ∀ t, clean_schema_for_gemini s = some t → GoodVal t by
    exact fun s hs t ht => H (sizeOf s) s le_rfl hs t ht
  intro n
  induction n with
  | zero =>
      intro s hs
      exact absurd hs (by cases s <;> simp <;> omega)
  | succ n ihn =>
      intro s hsize hreq t ht
      cases s with
      | null => cases ht; exact ⟨rfl, rfl⟩
      | bool b => cases ht; exact ⟨rfl, rfl⟩
      | num q => cases ht; exact ⟨rfl, rfl⟩
      | str s2 => cases ht; exact ⟨rfl, rfl⟩
      | arr xs =>
          simp only [clean_schema_for_gemini, Option.bind_eq_bind,
            Option.bind_eq_some, Option.pure_def, Option.some.injEq] at ht
          obtain ⟨ys, hys, htv⟩ := ht
          subst htv
          have hall : ∀ y ∈ ys, GoodVal y := by
            refine cleanList_good_aux xs ?_ ys hys
            intro x hx t' ht'
            refine ihn x ?_ (reqStrListB_member hreq x hx) t' ht'
            have := List.sizeOf_lt_of_mem hx
            simp only [JVal.arr.sizeOf_spec] at hsize
            omega
          exact ⟨sanitaryListB_of_good hall, prunedListB_of_good hall⟩
      | obj kvs =>
          simp only [clean_schema_for_gemini, Option.bind_eq_bind,
            Option.bind_eq_some, Option.pure_def, Option.some.injEq] at ht
          obtain ⟨cleaned, hcf, post, hpost, htv⟩ := ht
          subst htv
          have hGE : GoodEntries cleaned := by
            refine cleanFields_good_aux kvs ?_ hreq [] (by intro e he; simp at he)
              cleaned hcf
            intro u hu hru t' ht'
            refine ihn u ?_ hru t' ht'
            simp only [JVal.obj.sizeOf_spec] at hsize
            omega
          obtain ⟨hGEp, htop⟩ := postRequired_good hGE hpost
          exact ⟨sanitaryEntriesB_of_good hGEp,
            by simp only [pruned_required, Bool.and_eq_true];
               exact ⟨htop, prunedEntriesB_of_good hGEp⟩⟩

/-- Inversion of the pipeline on the generic-fallback outcome: the
response parsed, reconciliation ran, strict validation failed, and the
fallback built the record. -/
theorem extract_generic_inv
    (validates : ModelClass → List (String × JVal) → Bool) (mc : ModelClass)
    (parsed : Option JVal) (g : GenericExtraction)
    (h : extract_structured_data validates mc parsed = .generic g) :
    ∃ j kvs0 kvs,
      parsed = some j ∧
      (match j with
       | .arr xs => JVal.obj [("items", JVal.arr xs)]
       | v => v) = .obj kvs0 ∧
      cleanup_pass (model_fields mc) kvs0 = some kvs ∧
      validates mc (reconcile mc kvs).1 = false ∧
      build_generic mc (reconcile mc kvs).1 (reconcile mc kvs).2.1
        (reconcile mc kvs).2.2 = .generic g := by
  cases parsed with
  | none => cases h
  | some j =>
      cases j with
      | obj kvs0 =>
          simp only [extract_structured_data] at h
          cases hcp : cleanup_pass (model_fields mc) kvs0 with
          | none => rw [hcp] at h; cases h
          | some kvs =>
              rw [hcp] at h
              dsimp only at h
              by_cases hv : validates mc (reconcile mc kvs).1
              · rw [if_pos hv] at h; cases h
              · rw [if_neg hv] at h
                exact ⟨.obj kvs0, kvs0, kvs, rfl, rfl, hcp,
                  Bool.eq_false_iff.2 hv, h⟩
      | arr xs =>
          simp only [extract_structured_data] at h
          cases hcp : cleanup_pass (model_fields mc) [("items", JVal.arr xs)] with
          | none => rw [hcp] at h; cases h
          | some kvs =>
              rw [hcp] at h
              dsimp only at h
              by_cases hv : validates mc (reconcile mc kvs).1
              · rw [if_pos hv] at h; cases h
              · rw [if_neg hv] at h
                exact ⟨.arr xs, [("items", JVal.arr xs)], kvs, rfl, rfl, hcp,
                  Bool.eq_false_iff.2 hv, h⟩
      | null => cases h
      | bool b => cases h
      | num q => cases h
      | str s => cases h

/-- Inversion of the pipeline on the strict outcome: the returned kwargs
are exactly the reconciled ones. -/
theorem extract_strict_inv
    (validates : ModelClass → List (String × JVal) → Bool) (mc : ModelClass)
    (parsed : Option JVal) (d : List (String × JVal))
    (h : extract_structured_data validates mc parsed = .strict d) :
    ∃ j kvs0 kvs,
      parsed = some j ∧
      (match j with
       | .arr xs => JVal.obj [("items", JVal.arr xs)]
       | v => v) = .obj kvs0 ∧
      cleanup_pass (model_fields mc) kvs0 = some kvs ∧
      validates mc (reconcile mc kvs).1 = true ∧
      d = (reconcile mc kvs).1 := by
  cases parsed with
  | none => cases h
  | some j =>
      cases j with
      | obj kvs0 =>
          simp only [extract_structured_data] at h
          cases hcp : cleanup_pass (model_fields mc) kvs0 with
          | none => rw [hcp] at h; cases h
          | some kvs =>
              rw [hcp] at h
              dsimp only at h
              by_cases hv : validates mc (reconcile mc kvs).1
              · rw [if_pos hv] at h
                cases h
                exact ⟨.obj kvs0, kvs0, kvs, rfl, rfl, hcp, hv, rfl⟩
              · rw [if_neg hv] at h
                exact absurd h (build_generic_ne_strict mc _ _ _ d)
      | arr xs =>
          simp only [extract_structured_data] at h
          cases hcp : cleanup_pass (model_fields mc) [("items", JVal.arr xs)] with
          | none => rw [hcp] at h; cases h
          | some kvs =>
              rw [hcp] at h
              dsimp only at h
              by_cases hv : validates mc (reconcile mc kvs).1
              · rw [if_pos hv] at h
                cases h
                exact ⟨.arr xs, [("items", JVal.arr xs)], kvs, rfl, rfl, hcp,
                  hv, rfl⟩
              · rw [if_neg hv] at h
                exact absurd h (build_generic_ne_strict mc _ _ _ d)
      | null => cases h
      | bool b => cases h
      | num q => cases h
      | str s => cases h

end GeminiAnalyzer

/-! ## Claim theorems. -/

namespace GeminiAnalyzer

open JVal

/-- C1: Losslessness of the fallback.  Whenever the pipeline, run on a raw
JSON object `R`, produces a `GenericExtraction`, every top-level key of
`R` is a key of the record's `raw_data` (under its original name — the
alias pass only ever adds keys on top); and inside a normalized list
item every original key survives under its own name, or under `"name"`
when it is one of the aliases `item`/`exercise`/`activity`/`product`. -/
theorem C1_fallback_losslessness
    (validates : ModelClass → List (String × JVal) → Bool) (mc : ModelClass)
    (R : List (String × JVal)) (g : GenericExtraction)
    (h : extract_structured_data validates mc (some (.obj R)) = .generic g) :
    (∀ k, objHasKey R k = true → objHasKey g.raw_data k = true) ∧
    (∀ (ikvs : List (String × JVal)) (k : String) (v : JVal), (k, v) ∈ ikvs →
        objHasKey (normalize_item_fields ikvs)
          (if k ∈ item_key_aliases then "name" else k) = true) := by
  constructor
  · intro k hk
    obtain ⟨j, kvs0, kvs, hj, hobj, hcp, hval, hbg⟩ :=
      extract_generic_inv _ _ _ _ h
    obtain rfl : JVal.obj R = j := Option.some.inj hj
    have hR : kvs0 = R := by
      have : JVal.obj R = JVal.obj kvs0 := hobj
      cases this
      rfl
    subst hR
    have hkvs : objHasKey kvs k = true := by
      rw [objHasKey_eq_of_map_fst kvs kvs0
        (cleanup_pass_keys (model_fields mc) kvs0 kvs hcp) k]
      exact hk
    have h2 : objHasKey (reconcile mc kvs).2.2 k = true :=
      reconcile_kvs2_keys mc kvs k hkvs
    exact (build_generic_generic mc _ _ _ g hbg).2 k h2
  · intro ikvs k v hmem
    exact normalize_item_fields_covers ikvs k v hmem

/-- C1 witness: a concrete fallback run — every raw key (here
`"category"`) reaches `raw_data`, and an `"exercise"` item key is
normalized to `"name"`. -/
theorem C1_fallback_losslessness_witness :
    objHasKey [("category", JVal.str "recipe"),
      ("_original_category", JVal.str "TutorialSummary"),
      ("_fallback_reason",
        JVal.str "Field name mismatch or validation error")] "category" =
      true ∧
    objHasKey (normalize_item_fields [("exercise", JVal.str "Crunches")])
      (if "exercise" ∈ item_key_aliases then "name" else "exercise") = true :=
  ⟨(C1_fallback_losslessness (fun _ _ => false) .tutorialSummary
      [("category", JVal.str "recipe")]
      ⟨"educational", none, none, none, half,
        [("category", JVal.str "recipe"),
         ("_original_category", JVal.str "TutorialSummary"),
         ("_fallback_reason",
           JVal.str "Field name mismatch or validation error")]⟩
      (by decide)).1 "category" (by decide),
   (C1_fallback_losslessness (fun _ _ => false) .tutorialSummary
      [("category", JVal.str "recipe")]
      ⟨"educational", none, none, none, half,
        [("category", JVal.str "recipe"),
         ("_original_category", JVal.str "TutorialSummary"),
         ("_fallback_reason",
           JVal.str "Field name mismatch or validation error")]⟩
      (by decide)).2 [("exercise", JVal.str "Crunches")] "exercise"
      (JVal.str "Crunches") (by simp)⟩

/-- C2: Forced category tagging.  For every raw response and validator
behaviour, a strict result carries `category = category_map mc` in its
kwargs (pydantic's `Literal` field stores exactly this value), and a
generic fallback record's `category` equals the same literal — whatever
category-like value the raw response contained. -/
theorem C2_forced_category_tagging
    (validates : ModelClass → List (String × JVal) → Bool) (mc : ModelClass)
    (parsed : Option JVal) :
    (∀ d, extract_structured_data validates mc parsed = .strict d →
        objGet d "category" = some (.str (category_map mc))) ∧
    (∀ g, extract_structured_data validates mc parsed = .generic g →
        g.category = category_map mc) := by
  constructor
  · intro d h
    obtain ⟨j, kvs0, kvs, _, _, _, _, hd⟩ := extract_strict_inv _ _ _ _ h
    rw [hd]
    exact reconcile_category mc kvs
  · intro g h
    obtain ⟨j, kvs0, kvs, _, _, _, _, hbg⟩ := extract_generic_inv _ _ _ _ h
    have hcat := (build_generic_generic mc _ _ _ g hbg).1
    rw [reconcile_category mc kvs] at hcat
    simp only [Option.getD_some, JVal.str.injEq] at hcat
    exact hcat.symm

/-- C2 witness: a raw response claiming `category = "recipe"` still yields
`"workout"` on the strict path and `"educational"` on the fallback
path. -/
theorem C2_forced_category_tagging_witness :
    objGet [("category", JVal.str "workout"),
        ("estimated_duration_minutes", JVal.num 20),
        ("difficulty_level", JVal.str "intermediate")] "category" =
      some (.str (category_map .workoutRoutine)) ∧
    (⟨"educational", none, none, none, half,
        [("category", JVal.str "recipe"),
         ("_original_category", JVal.str "TutorialSummary"),
         ("_fallback_reason",
           JVal.str "Field name mismatch or validation error")]⟩ :
      GenericExtraction).category = category_map .tutorialSummary :=
  ⟨(C2_forced_category_tagging (fun _ _ => true) .workoutRoutine
      (some (.obj [("category", JVal.str "recipe")]))).1
      [("category", JVal.str "workout"),
       ("estimated_duration_minutes", JVal.num 20),
       ("difficulty_level", JVal.str "intermediate")] (by decide),
   (C2_forced_category_tagging (fun _ _ => false) .tutorialSummary
      (some (.obj [("category", JVal.str "recipe")]))).2
      ⟨"educational", none, none, none, half,
        [("category", JVal.str "recipe"),
         ("_original_category", JVal.str "TutorialSummary"),
         ("_fallback_reason",
           JVal.str "Field name mismatch or validation error")]⟩ (by decide)⟩

/-- C9: A parse failure is terminal.  When the fence-unwrapped response
text does not parse as JSON, the call returns the "Invalid JSON
response" error result — no exception, no fallback; and a generic
fallback can only ever arise from successfully parsed JSON on which
strict construction failed. -/
theorem C9_parse_failure_is_terminal
    (validates : ModelClass → List (String × JVal) → Bool) (mc : ModelClass)
    (parse : String → Option JVal) (text : String) :
    (parse (strip_code_fences text) = none →
        extract_structured_data validates mc (parse (strip_code_fences text)) =
          .failure .invalidJson) ∧
    (∀ (p : Option JVal) (g : GenericExtraction),
        extract_structured_data validates mc p = .generic g →
        ∃ j kvs, p = some j ∧ validates mc (reconcile mc kvs).1 = false) := by
  constructor
  · intro h
    rw [h]
    rfl
  · intro p g h
    obtain ⟨j, kvs0, kvs, hp, _, _, hval, _⟩ := extract_generic_inv _ _ _ _ h
    exact ⟨j, kvs, hp, hval⟩

/-- C9 witness: a response that is no JSON at all is reported as an
invalid-JSON error result. -/
theorem C9_parse_failure_is_terminal_witness :
    extract_structured_data (fun _ _ => false) .recipeCard
        ((fun _ => (none : Option JVal)) (strip_code_fences "not json")) =
      .failure .invalidJson :=
  (C9_parse_failure_is_terminal (fun _ _ => false) .recipeCard
    (fun _ => none) "not json").1 rfl

/-- C3 counterexample: a raw workout response whose `confidence_score` is
`2.0` (out of range).  Strict construction is a validation error (here:
the weakest pydantic-consistent validator rejects it), but contrary to
the claim the fallback does not clamp — `GenericExtraction` receives the
raw score, its own `ge/le` bound rejects it, and the call returns the
"Failed to create even generic extraction" error instead of a generic
record. -/
theorem C3_fallback_clamp_cex :
    extract_structured_data (fun _ d => confidence_in_range d)
        .workoutRoutine
        (some (.obj [("confidence_score", JVal.num 2),
          ("exercises", JVal.arr [JVal.obj [("name", JVal.str "Squats")]])])) =
      .failure .genericFailed := by
  decide

/-- C3 amended: for a raw response with a numeric `confidence_score`
outside `[0.0, 1.0]`, strict construction is a validation error (any
validator consistent with pydantic's confidence bound rejects the
reconciled kwargs), and the fallback does not clamp: the same
out-of-range score reaches `GenericExtraction`, whose own bound rejects
it, so the extraction call returns an error result — no generic record
is produced. -/
theorem C3_fallback_no_clamp_amended
    (validates : ModelClass → List (String × JVal) → Bool) (mc : ModelClass)
    (R : List (String × JVal)) (q : Rat)
    (hnodup : (R.map Prod.fst).Nodup)
    (hconf : objGet R "confidence_score" = some (.num q))
    (hq : ¬(0 ≤ q ∧ q ≤ 1))
    (hv : ∀ d, validates mc d = true → confidence_in_range d = true) :
    ∃ e, extract_structured_data validates mc (some (.obj R)) =
      .failure e := by
  simp only [extract_structured_data]
  cases hcp : cleanup_pass (model_fields mc) R with
  | none => exact ⟨.extractErr, rfl⟩
  | some kvs =>
      dsimp only
      have hkvs_conf : objGet kvs "confidence_score" = some (.num q) := by
        rw [cleanup_pass_objGet_ne (model_fields mc) R kvs hcp
          "confidence_score" (by decide)]
        exact hconf
      have hkvs_nodup : (kvs.map Prod.fst).Nodup := by
        rw [cleanup_pass_keys (model_fields mc) R kvs hcp]
        exact hnodup
      have hmap_conf : objGet (reconcile mc kvs).1 "confidence_score" =
          some (.num q) :=
        reconcile_confidence mc kvs q hkvs_nodup hkvs_conf
      have hval : validates mc (reconcile mc kvs).1 = false := by
        cases hvb : validates mc (reconcile mc kvs).1 with
        | false => rfl
        | true =>
            have := hv _ hvb
            rw [confidence_in_range, hmap_conf] at this
            simp only [decide_eq_true_eq] at this
            exact absurd this hq
      rw [if_neg (by simp [hval])]
      exact ⟨.genericFailed,
        build_generic_conf_fail mc _ _ _ q hmap_conf hq⟩

/-- C3 amended witness: the concrete out-of-range run — strict rejected,
generic construction rejected, error result returned. -/
theorem C3_fallback_no_clamp_amended_witness :
    ∃ e, extract_structured_data (fun _ d => confidence_in_range d)
        .workoutRoutine (some (.obj [("confidence_score", JVal.num 2)])) =
      .failure e :=
  C3_fallback_no_clamp_amended (fun _ d => confidence_in_range d)
    .workoutRoutine [("confidence_score", JVal.num 2)] 2
    (by decide) (by decide) (by decide) (fun _ h => h)

/-- C8 counterexample: a 60-character single-line exercise name is not
touched by the reconciliation cleanup (the guard only fires above 100
characters), so the reconciled exercise name has 60 > 50 characters —
contrary to the claim that every reconciled name is at most 50
characters. -/
theorem C8_name_truncation_cex :
    extract_structured_data (fun _ _ => true) .workoutRoutine
        (some (.obj [("exercises",
          JVal.arr [JVal.obj [("name",
            JVal.str (String.mk (List.replicate 60 'a')))]])])) =
      .strict [("exercises", JVal.arr [JVal.obj [("name",
          JVal.str (String.mk (List.replicate 60 'a')))]]),
        ("category", JVal.str "workout"),
        ("estimated_duration_minutes", JVal.num 20),
        ("difficulty_level", JVal.str "intermediate")] ∧
    50 < (String.mk (List.replicate 60 'a')).length :=
  ⟨by decide, by decide⟩

/-- C8 amended: the cleanup never raises on a dict item whose `name` is a
string; it truncates exactly the names longer than 100 characters, and
the truncated form is the stripped first line capped at 50 characters —
at most 50 characters, with no newline.  Names of up to 100 characters
(even multi-line ones) pass through unchanged. -/
theorem C8_name_truncation_amended (kvs : List (String × JVal)) (s : String)
    (hname : objGet kvs "name" = some (.str s)) :
    ∃ kvs', cleanup_exercise_item (.obj kvs) = some (.obj kvs') ∧
      objGet kvs' "name" =
        some (.str (if 100 < s.length then truncate_exercise_name s
                    else s)) ∧
      (truncate_exercise_name s).length ≤ 50 ∧
      '\n' ∉ (truncate_exercise_name s).toList := by
  by_cases hlen : 100 < s.length
  · refine ⟨objSet kvs "name" (.str (truncate_exercise_name s)), ?_, ?_, ?_, ?_⟩
    · simp [cleanup_exercise_item, hname, hlen]
    · rw [if_pos hlen]
      exact objGet_objSet_self kvs "name" _
    · exact truncate_exercise_name_le s
    · exact truncate_exercise_name_no_newline s
  · refine ⟨kvs, ?_, ?_, truncate_exercise_name_le s,
      truncate_exercise_name_no_newline s⟩
    · simp [cleanup_exercise_item, hname, hlen]
    · rw [if_neg hlen]
      exact hname

/-- C8 amended witness: a 120-character two-line name is truncated to its
first line capped at 50 characters. -/
theorem C8_name_truncation_amended_witness :
    ∃ kvs', cleanup_exercise_item (.obj [("name",
        JVal.str (String.mk (List.replicate 70 'b' ++
          '\n' :: List.replicate 49 'c')))]) = some (.obj kvs') ∧
      objGet kvs' "name" =
        some (.str (if 100 < (String.mk (List.replicate 70 'b' ++
            '\n' :: List.replicate 49 'c')).length then
          truncate_exercise_name (String.mk (List.replicate 70 'b' ++
            '\n' :: List.replicate 49 'c'))
          else String.mk (List.replicate 70 'b' ++
            '\n' :: List.replicate 49 'c'))) ∧
      (truncate_exercise_name (String.mk (List.replicate 70 'b' ++
        '\n' :: List.replicate 49 'c'))).length ≤ 50 ∧
      '\n' ∉ (truncate_exercise_name (String.mk (List.replicate 70 'b' ++
        '\n' :: List.replicate 49 'c'))).toList :=
  C8_name_truncation_amended
    [("name", JVal.str (String.mk (List.replicate 70 'b' ++
      '\n' :: List.replicate 49 'c')))]
    (String.mk (List.replicate 70 'b' ++ '\n' :: List.replicate 49 'c'))
    (by decide)

/-- C4 counterexample: scenario B as written — a `#/<defs-key>/<name>`
pointer with defs-key `defs`.  `_resolve_schema_refs` only recognizes
paths starting with `#/$defs/`, so the reference is left unresolved;
the sanitizer then strips the unsupported `$ref` keyword, the emptied
property is dropped, and the `defs` wrapper is stripped.  The sanitized
result is `{"type": "object"}`: no inlined copy of the referenced
definition remains, contrary to the claim. -/
theorem C4_ref_inlining_cex :
    (resolve_schema_refs 100 c4_schema_defs
        [("Exercise", c4_exercise_def)]).bind clean_schema_for_gemini =
      some (.obj [("type", JVal.str "object")]) ∧
    objHasKey [("type", JVal.str "object")] "exercises" = false :=
  ⟨by decide, by decide⟩

/-- C5 counterexample: a `required` value is copied into the output
verbatim — here it carries a dict whose key `foo` is none of the five
allowlisted keywords, so the output does NOT have only allowlisted keys
in every dict at every nesting level. -/
theorem C5_keyword_allowlist_cex :
    clean_schema_for_gemini c5_schema = some c5_schema ∧
    allow_keys_only c5_schema = false :=
  ⟨by decide, by decide⟩

/-- C6 counterexample: the only property (`a`) is stripped to an empty
schema and dropped, so `properties` disappears — and then the
post-processing guard `"required" in cleaned and "properties" in
cleaned` never fires: the output keeps `required = ["a"]` although no
sibling `properties` map exists, instead of dropping it. -/
theorem C6_required_pruning_cex :
    clean_schema_for_gemini c6_schema =
      some (.obj [("type", JVal.str "object"),
        ("required", .arr [JVal.str "a"])]) ∧
    objGet [("type", JVal.str "object"),
        ("required", JVal.arr [JVal.str "a"])] "required" =
      some (.arr [JVal.str "a"]) ∧
    objHasKey [("type", JVal.str "object"),
        ("required", JVal.arr [JVal.str "a"])] "properties" = false :=
  ⟨by decide, by decide, by decide⟩

/-- C4 amended: reference inlining works exactly for internal pointers of
the form `#/$defs/<name>` resolved against the `$defs` section: the
sanitized result carries a fully inlined copy of the referenced
definition's structural keywords, with zero remaining `$ref` pointers
and no `description` keys, and inlining recurses through a definition
that itself references another definition. -/
theorem C4_ref_inlining_amended :
    (resolve_schema_refs 100 c4_schema_dollar
        [("Exercise", c4_exercise_def)]).bind clean_schema_for_gemini =
      some (.obj [("type", JVal.str "object"),
        ("properties", .obj [("exercises", .obj [("type", JVal.str "object"),
          ("properties", .obj [("name",
            .obj [("type", JVal.str "string")])])])])]) ∧
    (resolve_schema_refs 100
        (.obj [("properties", .obj [("step",
           .obj [("$ref", JVal.str "#/$defs/Outer")])]),
          ("$defs", .obj c4_defs_chain)])
        c4_defs_chain).bind clean_schema_for_gemini =
      some (.obj [("properties", .obj [("step",
        .obj [("type", JVal.str "string")])])]) :=
  ⟨by decide, by decide⟩

theorem objHasKey_append (A B : List (String × JVal)) (k : String) :
    objHasKey (A ++ B) k = (objHasKey A k || objHasKey B k) := by
  induction A with
  | nil => simp [objHasKey]
  | cons kv rest ih =>
      obtain ⟨k', v'⟩ := kv
      simp [objHasKey, ih, Bool.or_assoc]

theorem objHasKey_of_mem {kvs : List (String × JVal)} {e : String × JVal}
    (h : e ∈ kvs) : objHasKey kvs e.1 = true := by
  induction kvs with
  | nil => simp at h
  | cons kv rest ih =>
      rcases List.mem_cons.1 h with rfl | hm
      · simp [objHasKey]
      · obtain ⟨k', v'⟩ := kv
        simp only [objHasKey, Bool.or_eq_true]
        exact Or.inr (ih hm)

theorem nodupKeysB_objSet (kvs : List (String × JVal)) (k : String)
    (v : JVal) (h : nodupKeysB kvs = true) :
    nodupKeysB (objSet kvs k v) = true := by
  induction kvs with
  | nil => simp [objSet, nodupKeysB, objHasKey]
  | cons kv rest ih =>
      obtain ⟨k', v'⟩ := kv
      simp only [nodupKeysB, Bool.and_eq_true, Bool.not_eq_true'] at h
      by_cases hk : k' = k
      · subst hk
        simp only [objSet, if_pos rfl]
        simp only [nodupKeysB, Bool.and_eq_true, Bool.not_eq_true']
        exact h
      · simp only [objSet, if_neg hk]
        simp only [nodupKeysB, Bool.and_eq_true, Bool.not_eq_true']
        refine ⟨?_, ih h.2⟩
        cases hb : objHasKey (objSet rest k v) k'
        · rfl
        · exfalso
          rcases (objHasKey_objSet rest k k' v).1 hb with h1 | h1
          · exact hk h1
          · rw [h.1] at h1
            cases h1

theorem nodupKeysB_objDel (kvs : List (String × JVal)) (k : String)
    (h : nodupKeysB kvs = true) : nodupKeysB (objDel kvs k) = true := by
  induction kvs with
  | nil => simp [objDel, nodupKeysB]
  | cons kv rest ih =>
      obtain ⟨k', v'⟩ := kv
      simp only [nodupKeysB, Bool.and_eq_true, Bool.not_eq_true'] at h
      simp only [objDel]
      split
      · exact ih h.2
      · simp only [nodupKeysB, Bool.and_eq_true, Bool.not_eq_true']
        refine ⟨?_, ih h.2⟩
        cases hb : objHasKey (objDel rest k) k'
        · rfl
        · exfalso
          obtain ⟨w, hw⟩ := objHasKey_exists_mem _ _ hb
          have hmem : (k', w) ∈ rest := mem_objDel hw
          have := objHasKey_of_mem hmem
          rw [h.1] at this
          cases this

theorem keep_append {acc : List (String × JVal)} {k : String} {v : JVal}
    (hnn : v ≠ null) (hno : v ≠ obj [])
    (hfr : objHasKey acc k = false) :
    keep_cleaned_value acc k v = acc ++ [(k, v)] := by
  unfold keep_cleaned_value
  rw [if_neg (not_or.mpr ⟨hnn, hno⟩)]
  exact objSet_append acc k v hfr

theorem filterMem_all : ∀ (l : List JVal) (p : JVal),
    (∀ e ∈ l, pyMem e p = some true) → filterMem l p = some l := by
  intro l
  induction l with
  | nil => intro p _; rfl
  | cons e rest ih =>
      intro p h
      simp only [filterMem, Option.bind_eq_bind]
      rw [h e (List.mem_cons_self _ _), Option.some_bind,
        ih p fun x hx => h x (List.mem_cons_of_mem _ hx)]
      simp

theorem cleanFields_nonspecial_eq {k : String} (v : JVal)
    (rest acc : List (String × JVal))
    (hk1 : k ∈ supported_fields) (hk2 : ¬k = "properties")
    (hk3 : ¬k = "required") :
    cleanFields ((k, v) :: rest) acc =
      (clean_schema_for_gemini v).bind fun cv =>
        cleanFields rest (keep_cleaned_value acc k cv) := by
  cases v <;>
    (simp only [cleanFields]
     rw [if_pos hk1, if_neg hk2, if_neg hk3]
     simp only [Option.bind_eq_bind, Option.pure_def, Option.some_bind]
     try rfl)

theorem cleanFields_props_obj_eq {k : String}
    (cp : List (String × JVal)) (rest acc : List (String × JVal))
    (hk1 : k ∈ supported_fields) (hk2 : k = "properties") :
    cleanFields ((k, obj cp) :: rest) acc =
      (cleanProps cp []).bind fun cps =>
        cleanFields rest
          (if cps.isEmpty then acc else objSet acc k (obj cps)) := by
  simp only [cleanFields]
  rw [if_pos hk1, if_pos hk2]
  simp only [Option.bind_eq_bind, Option.pure_def, Option.some_bind]
  try rfl

theorem cleanFields_props_nonobj_eq {k : String} (v : JVal)
    (rest acc : List (String × JVal))
    (hk1 : k ∈ supported_fields) (hk2 : k = "properties")
    (hv : ∀ cp, v ≠ obj cp) :
    cleanFields ((k, v) :: rest) acc =
      (clean_schema_for_gemini v).bind fun cv =>
        cleanFields rest (keep_cleaned_value acc k cv) := by
  cases v with
  | obj cp => exact absurd rfl (hv cp)
  | null =>
      simp only [cleanFields]
      rw [if_pos hk1, if_pos hk2]
      simp only [Option.bind_eq_bind, Option.pure_def, Option.some_bind]
      try rfl
  | bool b =>
      simp only [cleanFields]
      rw [if_pos hk1, if_pos hk2]
      simp only [Option.bind_eq_bind, Option.pure_def, Option.some_bind]
      try rfl
  | num q =>
      simp only [cleanFields]
      rw [if_pos hk1, if_pos hk2]
      simp only [Option.bind_eq_bind, Option.pure_def, Option.some_bind]
      try rfl
  | str s =>
      simp only [cleanFields]
      rw [if_pos hk1, if_pos hk2]
      simp only [Option.bind_eq_bind, Option.pure_def, Option.some_bind]
      try rfl
  | arr xs =>
      simp only [cleanFields]
      rw [if_pos hk1, if_pos hk2]
      simp only [Option.bind_eq_bind, Option.pure_def, Option.some_bind]
      try rfl

theorem cleanFields_req_arr_eq {k : String} (l : List JVal)
    (rest acc : List (String × JVal))
    (hk1 : k ∈ supported_fields) (hk2 : ¬k = "properties")
    (hk3 : k = "required") :
    cleanFields ((k, arr l) :: rest) acc =
      cleanFields rest (objSet acc k (arr l)) := by
  simp only [cleanFields]
  rw [if_pos hk1, if_neg hk2, if_pos hk3]
  simp only [Option.bind_eq_bind, Option.pure_def, Option.some_bind]
  try rfl

theorem cleanFields_req_nonarr_eq {k : String} (v : JVal)
    (rest acc : List (String × JVal))
    (hk1 : k ∈ supported_fields) (hk2 : ¬k = "properties")
    (hk3 : k = "required") (hv : ∀ l, v ≠ arr l) :
    cleanFields ((k, v) :: rest) acc =
      (clean_schema_for_gemini v).bind fun cv =>
        cleanFields rest (keep_cleaned_value acc k cv) := by
  cases v with
  | arr l => exact absurd rfl (hv l)
  | null =>
      simp only [cleanFields]
      rw [if_pos hk1, if_neg hk2, if_pos hk3]
      simp only [Option.bind_eq_bind, Option.pure_def, Option.some_bind]
      try rfl
  | bool b =>
      simp only [cleanFields]
      rw [if_pos hk1, if_neg hk2, if_pos hk3]
      simp only [Option.bind_eq_bind, Option.pure_def, Option.some_bind]
      try rfl
  | num q =>
      simp only [cleanFields]
      rw [if_pos hk1, if_neg hk2, if_pos hk3]
      simp only [Option.bind_eq_bind, Option.pure_def, Option.some_bind]
      try rfl
  | str s =>
      simp only [cleanFields]
      rw [if_pos hk1, if_neg hk2, if_pos hk3]
      simp only [Option.bind_eq_bind, Option.pure_def, Option.some_bind]
      try rfl
  | obj kvs =>
      simp only [cleanFields]
      rw [if_pos hk1, if_neg hk2, if_pos hk3]
      simp only [Option.bind_eq_bind, Option.pure_def, Option.some_bind]
      try rfl

theorem cleanFields_unsupported_eq {k : String} (v : JVal)
    (rest acc : List (String × JVal))
    (hk1 : ¬k ∈ supported_fields) :
    cleanFields ((k, v) :: rest) acc = cleanFields rest acc := by
  cases v <;>
    (simp only [cleanFields]
     rw [if_neg hk1]
     simp only [Option.bind_eq_bind, Option.pure_def, Option.some_bind]
     try rfl)

theorem cleanProps_replay : ∀ (cp acc : List (String × JVal)),
    (∀ p ∈ cp, clean_schema_for_gemini p.2 = some p.2 ∧
      pyTruthy p.2 = true) →
    (∀ p ∈ cp, objHasKey acc p.1 = false) →
    nodupKeysB cp = true →
    cleanProps cp acc = some (acc ++ cp) := by
  intro cp
  induction cp with
  | nil => intro acc _ _ _; simp [cleanProps]
  | cons p rest ih =>
      obtain ⟨pn, pv⟩ := p
      intro acc hfix hfresh hnod
      obtain ⟨hcl, htr⟩ := hfix (pn, pv) (List.mem_cons_self _ _)
      simp only [nodupKeysB, Bool.and_eq_true, Bool.not_eq_true'] at hnod
      simp only [cleanProps, Option.bind_eq_bind]
      rw [hcl, Option.some_bind, htr]
      simp only [if_true]
      rw [objSet_append acc pn pv (hfresh (pn, pv) (List.mem_cons_self _ _))]
      rw [ih (acc ++ [(pn, pv)])
        (fun q hq => hfix q (List.mem_cons_of_mem _ hq)) ?_ hnod.2]
      · simp
      · intro q hq
        rw [objHasKey_append]
        have h1 := hfresh q (List.mem_cons_of_mem _ hq)
        have hne : ¬pn = q.1 := by
          intro hEq
          have h2 := objHasKey_of_mem hq
          rw [← hEq, hnod.1] at h2
          cases h2
        rw [h1]
        simp [objHasKey, hne]

theorem postRequired_replay {kvs : List (String × JVal)}
    (h : postStable kvs) : postRequired kvs = some kvs := by
  rcases hr : objGet kvs "required" with _ | r
  · simp only [postRequired, hr]
  · rcases hp : objGet kvs "properties" with _ | p
    · simp only [postRequired, hr, hp]
    · obtain ⟨l, hl, hne, hall⟩ := h r p hr hp
      subst hl
      simp only [postRequired, hr, hp, pyIterate, Option.bind_eq_bind,
        Option.some_bind]
      rw [filterMem_all l p hall]
      simp only [Option.some_bind, Option.pure_def]
      have hle : l.isEmpty = false := by
        cases l
        · exact absurd rfl hne
        · rfl
      rw [hle]
      simp only [Bool.false_eq_true, if_false]
      rw [objSet_eq_self kvs "required" (arr l) hr]

theorem cleanFields_replay_keepstep {k : String} {v : JVal}
    {rest acc : List (String × JVal)}
    (heq : cleanFields ((k, v) :: rest) acc =
      (clean_schema_for_gemini v).bind fun cv =>
        cleanFields rest (keep_cleaned_value acc k cv))
    (hcl : clean_schema_for_gemini v = some v)
    (hnn : v ≠ null) (hno : v ≠ obj [])
    (hfr : objHasKey acc k = false)
    (hrest : cleanFields rest (acc ++ [(k, v)]) =
      some ((acc ++ [(k, v)]) ++ rest)) :
    cleanFields ((k, v) :: rest) acc = some (acc ++ (k, v) :: rest) := by
  rw [heq, hcl, Option.some_bind, keep_append hnn hno hfr, hrest]
  simp

theorem cleanFields_replay : ∀ (L acc : List (String × JVal)),
    (∀ e ∈ L, ReplayEntry e) → nodupKeysB L = true →
    (∀ e ∈ L, objHasKey acc e.1 = false) →
    cleanFields L acc = some (acc ++ L) := by
  intro L
  induction L with
  | nil => intro acc _ _ _; simp [cleanFields]
  | cons kv rest ih =>
      obtain ⟨k, v⟩ := kv
      intro acc hre hnod hfresh
      have he0 := hre (k, v) (List.mem_cons_self _ _)
      simp only [ReplayEntry] at he0
      obtain ⟨hk1, hcond⟩ := he0
      simp only [nodupKeysB, Bool.and_eq_true, Bool.not_eq_true'] at hnod
      have hfreshk : objHasKey acc k = false :=
        hfresh (k, v) (List.mem_cons_self _ _)
      have hre' : ∀ e ∈ rest, ReplayEntry e :=
        fun e he => hre e (List.mem_cons_of_mem _ he)
      have hfresh' : ∀ e ∈ rest, objHasKey (acc ++ [(k, v)]) e.1 = false := by
        intro e he
        rw [objHasKey_append]
        have h1 := hfresh e (List.mem_cons_of_mem _ he)
        have hek : ¬k = e.1 := by
          intro hEq
          have h2 := objHasKey_of_mem he
          rw [← hEq, hnod.1] at h2
          cases h2
        rw [h1]
        simp [objHasKey, hek]
      by_cases hk2 : k = "properties"
      · rw [if_pos hk2] at hcond
        cases v with
        | obj cp =>
            simp only [replayPropsVal] at hcond
            obtain ⟨hne, hnodcp, hfix⟩ := hcond
            rw [cleanFields_props_obj_eq cp rest acc hk1 hk2]
            rw [cleanProps_replay cp [] hfix (fun p hp => rfl) hnodcp,
              Option.some_bind, List.nil_append]
            have hie : cp.isEmpty = false := by
              cases cp
              · exact absurd rfl hne
              · rfl
            rw [hie]
            simp only [Bool.false_eq_true, if_false]
            rw [objSet_append acc k (obj cp) hfreshk,
              ih (acc ++ [(k, obj cp)]) hre' hnod.2 hfresh']
            simp
        | null =>
            simp only [replayPropsVal] at hcond
            exact absurd rfl hcond.2
        | bool b =>
            simp only [replayPropsVal] at hcond
            exact cleanFields_replay_keepstep
              (cleanFields_props_nonobj_eq _ rest acc hk1 hk2
                (by intro cp hc; cases hc))
              hcond.1 (by intro hc; cases hc) (by intro hc; cases hc)
              hfreshk (ih _ hre' hnod.2 hfresh')
        | num q =>
            simp only [replayPropsVal] at hcond
            exact cleanFields_replay_keepstep
              (cleanFields_props_nonobj_eq _ rest acc hk1 hk2
                (by intro cp hc; cases hc))
              hcond.1 (by intro hc; cases hc) (by intro hc; cases hc)
              hfreshk (ih _ hre' hnod.2 hfresh')
        | str s =>
            simp only [replayPropsVal] at hcond
            exact cleanFields_replay_keepstep
              (cleanFields_props_nonobj_eq _ rest acc hk1 hk2
                (by intro cp hc; cases hc))
              hcond.1 (by intro hc; cases hc) (by intro hc; cases hc)
              hfreshk (ih _ hre' hnod.2 hfresh')
        | arr xs =>
            simp only [replayPropsVal] at hcond
            exact cleanFields_replay_keepstep
              (cleanFields_props_nonobj_eq _ rest acc hk1 hk2
                (by intro cp hc; cases hc))
              hcond.1 (by intro hc; cases hc) (by intro hc; cases hc)
              hfreshk (ih _ hre' hnod.2 hfresh')
      · by_cases hk3 : k = "required"
        · rw [if_neg hk2, if_pos hk3] at hcond
          cases v with
          | arr l =>
              rw [cleanFields_req_arr_eq l rest acc hk1 hk2 hk3,
                objSet_append acc k (arr l) hfreshk,
                ih (acc ++ [(k, arr l)]) hre' hnod.2 hfresh']
              simp
          | null =>
              simp only [replayReqVal] at hcond
              exact absurd rfl hcond.2.1
          | bool b =>
              simp only [replayReqVal] at hcond
              exact cleanFields_replay_keepstep
                (cleanFields_req_nonarr_eq _ rest acc hk1 hk2 hk3
                  (by intro l hc; cases hc))
                hcond.1 (by intro hc; cases hc) (by intro hc; cases hc)
                hfreshk (ih _ hre' hnod.2 hfresh')
          | num q =>
              simp only [replayReqVal] at hcond
              exact cleanFields_replay_keepstep
                (cleanFields_req_nonarr_eq _ rest acc hk1 hk2 hk3
                  (by intro l hc; cases hc))
                hcond.1 (by intro hc; cases hc) (by intro hc; cases hc)
                hfreshk (ih _ hre' hnod.2 hfresh')
          | str s =>
              simp only [replayReqVal] at hcond
              exact cleanFields_replay_keepstep
                (cleanFields_req_nonarr_eq _ rest acc hk1 hk2 hk3
                  (by intro l hc; cases hc))
                hcond.1 (by intro hc; cases hc) (by intro hc; cases hc)
                hfreshk (ih _ hre' hnod.2 hfresh')
          | obj kvs2 =>
              simp only [replayReqVal] at hcond
              exact cleanFields_replay_keepstep
                (cleanFields_req_nonarr_eq _ rest acc hk1 hk2 hk3
                  (by intro l hc; cases hc))
                hcond.1 hcond.2.1 hcond.2.2
                hfreshk (ih _ hre' hnod.2 hfresh')
        · rw [if_neg hk2, if_neg hk3] at hcond
          exact cleanFields_replay_keepstep
            (cleanFields_nonspecial_eq v rest acc hk1 hk2 hk3)
            hcond.1 hcond.2.1 hcond.2.2
            hfreshk (ih _ hre' hnod.2 hfresh')

theorem objHasKey_objSet_ne (kvs : List (String × JVal)) (k k2 : String)
    (v : JVal) (h : ¬k2 = k) :
    objHasKey (objSet kvs k v) k2 = objHasKey kvs k2 := by
  cases hb : objHasKey kvs k2
  · cases hb2 : objHasKey (objSet kvs k v) k2
    · rfl
    · rcases (objHasKey_objSet kvs k k2 v).1 hb2 with h1 | h1
      · exact absurd h1 h
      · rw [hb] at h1
        cases h1
  · exact (objHasKey_objSet kvs k k2 v).2 (Or.inr hb)

theorem cleanFields_props_nonobj_inv {k : String} {v : JVal}
    {rest acc out : List (String × JVal)}
    (hk1 : k ∈ supported_fields) (hk2 : k = "properties")
    (hv : ∀ cp, v ≠ obj cp)
    (h : cleanFields ((k, v) :: rest) acc = some out) :
    ∃ cv, clean_schema_for_gemini v = some cv ∧
      cleanFields rest (keep_cleaned_value acc k cv) = some out := by
  rw [cleanFields_props_nonobj_eq v rest acc hk1 hk2 hv] at h
  simp only [Option.bind_eq_bind, Option.bind_eq_some] at h
  exact h

theorem cleanFields_req_nonarr_inv {k : String} {v : JVal}
    {rest acc out : List (String × JVal)}
    (hk1 : k ∈ supported_fields) (hk2 : ¬k = "properties")
    (hk3 : k = "required") (hv : ∀ l, v ≠ arr l)
    (h : cleanFields ((k, v) :: rest) acc = some out) :
    ∃ cv, clean_schema_for_gemini v = some cv ∧
      cleanFields rest (keep_cleaned_value acc k cv) = some out := by
  rw [cleanFields_req_nonarr_eq v rest acc hk1 hk2 hk3 hv] at h
  simp only [Option.bind_eq_bind, Option.bind_eq_some] at h
  exact h

theorem cleanFields_keep_acc {k : String} {cv : JVal}
    {rest acc out : List (String × JVal)}
    (hrun : cleanFields rest (keep_cleaned_value acc k cv) = some out) :
    ∃ acc', (acc' = acc ∨ ∃ w, acc' = objSet acc k w) ∧
      cleanFields rest acc' = some out := by
  unfold keep_cleaned_value at hrun
  split at hrun
  · exact ⟨acc, Or.inl rfl, hrun⟩
  · exact ⟨_, Or.inr ⟨cv, rfl⟩, hrun⟩

theorem cleanFields_cons_acc {k : String} {v : JVal}
    {rest acc out : List (String × JVal)}
    (h : cleanFields ((k, v) :: rest) acc = some out) :
    ∃ acc', (acc' = acc ∨ ∃ w, acc' = objSet acc k w) ∧
      cleanFields rest acc' = some out := by
  by_cases hk1 : k ∈ supported_fields
  · by_cases hk2 : k = "properties"
    · cases v with
      | obj cp =>
          rw [cleanFields_props_obj_eq cp rest acc hk1 hk2] at h
          simp only [Option.bind_eq_bind, Option.bind_eq_some] at h
          obtain ⟨cps, hcps, hrun⟩ := h
          by_cases hie : cps.isEmpty = true
          · rw [if_pos hie] at hrun
            exact ⟨acc, Or.inl rfl, hrun⟩
          · rw [if_neg hie] at hrun
            exact ⟨_, Or.inr ⟨obj cps, rfl⟩, hrun⟩
      | null =>
          obtain ⟨cv, _, hrun⟩ := cleanFields_props_nonobj_inv hk1 hk2
            (by intro cp hc; cases hc) h
          exact cleanFields_keep_acc hrun
      | bool b =>
          obtain ⟨cv, _, hrun⟩ := cleanFields_props_nonobj_inv hk1 hk2
            (by intro cp hc; cases hc) h
          exact cleanFields_keep_acc hrun
      | num q =>
          obtain ⟨cv, _, hrun⟩ := cleanFields_props_nonobj_inv hk1 hk2
            (by intro cp hc; cases hc) h
          exact cleanFields_keep_acc hrun
      | str s =>
          obtain ⟨cv, _, hrun⟩ := cleanFields_props_nonobj_inv hk1 hk2
            (by intro cp hc; cases hc) h
          exact cleanFields_keep_acc hrun
      | arr xs =>
          obtain ⟨cv, _, hrun⟩ := cleanFields_props_nonobj_inv hk1 hk2
            (by intro cp hc; cases hc) h
          exact cleanFields_keep_acc hrun
    · by_cases hk3 : k = "required"
      · cases v with
        | arr l =>
            rw [cleanFields_req_arr_eq l rest acc hk1 hk2 hk3] at h
            exact ⟨_, Or.inr ⟨arr l, rfl⟩, h⟩
        | null =>
            obtain ⟨cv, _, hrun⟩ := cleanFields_req_nonarr_inv hk1 hk2 hk3
              (by intro l hc; cases hc) h
            exact cleanFields_keep_acc hrun
        | bool b =>
            obtain ⟨cv, _, hrun⟩ := cleanFields_req_nonarr_inv hk1 hk2 hk3
              (by intro l hc; cases hc) h
            exact cleanFields_keep_acc hrun
        | num q =>
            obtain ⟨cv, _, hrun⟩ := cleanFields_req_nonarr_inv hk1 hk2 hk3
              (by intro l hc; cases hc) h
            exact cleanFields_keep_acc hrun
        | str s =>
            obtain ⟨cv, _, hrun⟩ := cleanFields_req_nonarr_inv hk1 hk2 hk3
              (by intro l hc; cases hc) h
            exact cleanFields_keep_acc hrun
        | obj kvs2 =>
            obtain ⟨cv, _, hrun⟩ := cleanFields_req_nonarr_inv hk1 hk2 hk3
              (by intro l hc; cases hc) h
            exact cleanFields_keep_acc hrun
      · obtain ⟨cv, _, hrun⟩ := cleanFields_cons_nonspecial hk1 hk2 hk3 h
        exact cleanFields_keep_acc hrun
  · rw [cleanFields_unsupported_eq v rest acc hk1] at h
    exact ⟨acc, Or.inl rfl, h⟩

theorem cleanFields_nodup : ∀ (L acc out : List (String × JVal)),
    cleanFields L acc = some out → nodupKeysB acc = true →
    nodupKeysB out = true := by
  intro L
  induction L with
  | nil =>
      intro acc out h hn
      simp only [cleanFields, Option.pure_def, Option.some.injEq] at h
      subst h
      exact hn
  | cons kv rest ih =>
      obtain ⟨k, v⟩ := kv
      intro acc out h hn
      obtain ⟨acc', hshape, hrun⟩ := cleanFields_cons_acc h
      refine ih acc' out hrun ?_
      rcases hshape with rfl | ⟨w, rfl⟩
      · exact hn
      · exact nodupKeysB_objSet _ _ _ hn

theorem cleanProps_out : ∀ (cp acc out : List (String × JVal)),
    (∀ p ∈ cp, ∀ t, clean_schema_for_gemini p.2 = some t →
      clean_schema_for_gemini t = some t) →
    cleanProps cp acc = some out →
    (∀ e ∈ acc, clean_schema_for_gemini e.2 = some e.2 ∧
      pyTruthy e.2 = true) →
    ∀ e ∈ out, clean_schema_for_gemini e.2 = some e.2 ∧
      pyTruthy e.2 = true := by
  intro cp
  induction cp with
  | nil =>
      intro acc out _ h hacc
      simp only [cleanProps, Option.pure_def, Option.some.injEq] at h
      subst h
      exact hacc
  | cons p rest ih =>
      obtain ⟨pn, ps⟩ := p
      intro acc out Hp h hacc
      simp only [cleanProps, Option.bind_eq_bind, Option.bind_eq_some] at h
      obtain ⟨cv, hcv, hrest⟩ := h
      by_cases htr : pyTruthy cv = true
      · rw [if_pos htr] at hrest
        refine ih _ out (fun q hq => Hp q (List.mem_cons_of_mem _ hq))
          hrest ?_
        intro e he
        rcases mem_objSet acc pn cv e he with hm | heq
        · exact hacc e hm
        · subst heq
          exact ⟨Hp (pn, ps) (List.mem_cons_self _ _) cv hcv, htr⟩
      · rw [if_neg htr] at hrest
        exact ih _ out (fun q hq => Hp q (List.mem_cons_of_mem _ hq))
          hrest hacc

theorem cleanProps_nodup : ∀ (cp acc out : List (String × JVal)),
    cleanProps cp acc = some out → nodupKeysB acc = true →
    nodupKeysB out = true := by
  intro cp
  induction cp with
  | nil =>
      intro acc out h hn
      simp only [cleanProps, Option.pure_def, Option.some.injEq] at h
      subst h
      exact hn
  | cons p rest ih =>
      obtain ⟨pn, ps⟩ := p
      intro acc out h hn
      simp only [cleanProps, Option.bind_eq_bind, Option.bind_eq_some] at h
      obtain ⟨cv, hcv, hrest⟩ := h
      refine ih _ out hrest ?_
      split
      · exact nodupKeysB_objSet _ _ _ hn
      · exact hn

theorem ReplayEntries_objSet {L : List (String × JVal)} {k : String}
    {v : JVal} (hL : ∀ e ∈ L, ReplayEntry e) (hv : ReplayEntry (k, v)) :
    ∀ e ∈ objSet L k v, ReplayEntry e := by
  intro e he
  rcases mem_objSet L k v e he with h | h
  · exact hL e h
  · subst h
    exact hv

theorem keep_replay_entries {acc : List (String × JVal)} {k : String}
    {cv : JVal} (hacc : ∀ e ∈ acc, ReplayEntry e)
    (hkv : cv ≠ null → cv ≠ obj [] → ReplayEntry (k, cv)) :
    ∀ e ∈ keep_cleaned_value acc k cv, ReplayEntry e := by
  unfold keep_cleaned_value
  split
  · exact hacc
  · rename_i hcond
    have hno := not_or.1 hcond
    exact ReplayEntries_objSet hacc (hkv hno.1 hno.2)

theorem replay_prop_obj_entry {k : String} {cp : List (String × JVal)}
    (hk1 : k ∈ supported_fields) (hk2 : k = "properties")
    (hne : cp ≠ []) (hnod : nodupKeysB cp = true)
    (hfix : ∀ p ∈ cp, clean_schema_for_gemini p.2 = some p.2 ∧
      pyTruthy p.2 = true) : ReplayEntry (k, obj cp) := by
  simp only [ReplayEntry]
  rw [if_pos hk2]
  exact ⟨hk1, hne, hnod, hfix⟩

theorem replay_prop_nonobj_entry {k : String} {cv : JVal}
    (hk1 : k ∈ supported_fields) (hk2 : k = "properties")
    (hnotobj : ∀ kvs, cv ≠ obj kvs)
    (hcl : clean_schema_for_gemini cv = some cv) (hnn : cv ≠ null) :
    ReplayEntry (k, cv) := by
  simp only [ReplayEntry]
  rw [if_pos hk2]
  refine ⟨hk1, ?_⟩
  cases cv with
  | obj kvs2 => exact absurd rfl (hnotobj kvs2)
  | null => exact ⟨hcl, hnn⟩
  | bool b => exact ⟨hcl, hnn⟩
  | num q => exact ⟨hcl, hnn⟩
  | str s => exact ⟨hcl, hnn⟩
  | arr xs => exact ⟨hcl, hnn⟩

theorem replay_req_entry {k : String} {v : JVal}
    (hk1 : k ∈ supported_fields) (hk2 : ¬k = "properties")
    (hk3 : k = "required") (hcond : replayReqVal v) :
    ReplayEntry (k, v) := by
  simp only [ReplayEntry]
  rw [if_neg hk2, if_pos hk3]
  exact ⟨hk1, hcond⟩

theorem replayReqVal_of (cv : JVal)
    (hcl : clean_schema_for_gemini cv = some cv)
    (hnn : cv ≠ null) (hno : cv ≠ obj []) : replayReqVal cv := by
  cases cv with
  | arr l => exact True.intro
  | null => exact ⟨hcl, hnn, hno⟩
  | bool b => exact ⟨hcl, hnn, hno⟩
  | num q => exact ⟨hcl, hnn, hno⟩
  | str s => exact ⟨hcl, hnn, hno⟩
  | obj kvs => exact ⟨hcl, hnn, hno⟩

theorem replay_generic_entry {k : String} {cv : JVal}
    (hk1 : k ∈ supported_fields) (hk2 : ¬k = "properties")
    (hk3 : ¬k = "required")
    (hcl : clean_schema_for_gemini cv = some cv) (hnn : cv ≠ null)
    (hno : cv ≠ obj []) : ReplayEntry (k, cv) := by
  simp only [ReplayEntry]
  rw [if_neg hk2, if_neg hk3]
  exact ⟨hk1, hcl, hnn, hno⟩

theorem cleanFields_replayout_aux :
    ∀ (kvs : List (String × JVal)),
      (∀ u : JVal, sizeOf u < sizeOf kvs →
        ∀ t, clean_schema_for_gemini u = some t →
          clean_schema_for_gemini t = some t) →
      ∀ acc, (∀ e ∈ acc, ReplayEntry e) →
      ∀ out, cleanFields kvs acc = some out →
      ∀ e ∈ out, ReplayEntry e := by
  intro kvs
  induction kvs with
  | nil =>
      intro _ acc hacc out h
      simp only [cleanFields, Option.pure_def, Option.some.injEq] at h
      subst h
      exact hacc
  | cons kv rest ih =>
      obtain ⟨k, v⟩ := kv
      intro H acc hacc out h
      have Hv : ∀ t, clean_schema_for_gemini v = some t →
          clean_schema_for_gemini t = some t := by
        intro t ht
        refine H v ?_ t ht
        simp only [List.cons.sizeOf_spec, Prod.mk.sizeOf_spec]
        omega
      have Hrest : ∀ u : JVal, sizeOf u < sizeOf rest →
          ∀ t, clean_schema_for_gemini u = some t →
            clean_schema_for_gemini t = some t := by
        intro u hu
        refine H u ?_
        simp only [List.cons.sizeOf_spec]
        omega
      by_cases hk1 : k ∈ supported_fields
      · by_cases hk2 : k = "properties"
        · cases v with
          | obj cp =>
              rw [cleanFields_props_obj_eq cp rest acc hk1 hk2] at h
              simp only [Option.bind_eq_bind, Option.bind_eq_some] at h
              obtain ⟨cps, hcps, hrun⟩ := h
              have Hfix : ∀ p ∈ cps, clean_schema_for_gemini p.2 = some p.2 ∧
                  pyTruthy p.2 = true := by
                refine cleanProps_out cp [] cps ?_ hcps
                  (by intro e he; simp at he)
                intro p hp t ht
                refine H p.2 ?_ t ht
                have h1 : sizeOf p.2 < sizeOf p := by
                  obtain ⟨a, b⟩ := p
                  simp only [Prod.mk.sizeOf_spec]
                  omega
                have h2 : sizeOf p < sizeOf cp :=
                  List.sizeOf_lt_of_mem hp
                simp only [List.cons.sizeOf_spec, Prod.mk.sizeOf_spec,
                  JVal.obj.sizeOf_spec]
                omega
              have Hnodcp : nodupKeysB cps = true :=
                cleanProps_nodup cp [] cps hcps rfl
              refine ih Hrest _ ?_ out hrun
              by_cases hie : cps.isEmpty = true
              · rw [if_pos hie]
                exact hacc
              · rw [if_neg hie]
                refine ReplayEntries_objSet hacc ?_
                refine replay_prop_obj_entry hk1 hk2 ?_ Hnodcp Hfix
                intro hc
                subst hc
                exact hie rfl
          | null =>
              obtain ⟨cv, hcv, hrun⟩ := cleanFields_props_nonobj_inv hk1 hk2
                (by intro cp hc; cases hc) h
              refine ih Hrest _ ?_ out hrun
              exact keep_replay_entries hacc fun hnn _ =>
                replay_prop_nonobj_entry hk1 hk2
                  (clean_preserves_not_obj (by intro kvs2 hc; cases hc) hcv)
                  (Hv cv hcv) hnn
          | bool b =>
              obtain ⟨cv, hcv, hrun⟩ := cleanFields_props_nonobj_inv hk1 hk2
                (by intro cp hc; cases hc) h
              refine ih Hrest _ ?_ out hrun
              exact keep_replay_entries hacc fun hnn _ =>
                replay_prop_nonobj_entry hk1 hk2
                  (clean_preserves_not_obj (by intro kvs2 hc; cases hc) hcv)
                  (Hv cv hcv) hnn
          | num q =>
              obtain ⟨cv, hcv, hrun⟩ := cleanFields_props_nonobj_inv hk1 hk2
                (by intro cp hc; cases hc) h
              refine ih Hrest _ ?_ out hrun
              exact keep_replay_entries hacc fun hnn _ =>
                replay_prop_nonobj_entry hk1 hk2
                  (clean_preserves_not_obj (by intro kvs2 hc; cases hc) hcv)
                  (Hv cv hcv) hnn
          | str s =>
              obtain ⟨cv, hcv, hrun⟩ := cleanFields_props_nonobj_inv hk1 hk2
                (by intro cp hc; cases hc) h
              refine ih Hrest _ ?_ out hrun
              exact keep_replay_entries hacc fun hnn _ =>
                replay_prop_nonobj_entry hk1 hk2
                  (clean_preserves_not_obj (by intro kvs2 hc; cases hc) hcv)
                  (Hv cv hcv) hnn
          | arr xs =>
              obtain ⟨cv, hcv, hrun⟩ := cleanFields_props_nonobj_inv hk1 hk2
                (by intro cp hc; cases hc) h
              refine ih Hrest _ ?_ out hrun
              exact keep_replay_entries hacc fun hnn _ =>
                replay_prop_nonobj_entry hk1 hk2
                  (clean_preserves_not_obj (by intro kvs2 hc; cases hc) hcv)
                  (Hv cv hcv) hnn
        · by_cases hk3 : k = "required"
          · cases v with
            | arr l =>
                rw [cleanFields_req_arr_eq l rest acc hk1 hk2 hk3] at h
                refine ih Hrest _ ?_ out h
                exact ReplayEntries_objSet hacc
                  (replay_req_entry hk1 hk2 hk3 True.intro)
            | null =>
                obtain ⟨cv, hcv, hrun⟩ := cleanFields_req_nonarr_inv hk1 hk2
                  hk3 (by intro l hc; cases hc) h
                refine ih Hrest _ ?_ out hrun
                exact keep_replay_entries hacc fun hnn hno =>
                  replay_req_entry hk1 hk2 hk3
                    (replayReqVal_of cv (Hv cv hcv) hnn hno)
            | bool b =>
                obtain ⟨cv, hcv, hrun⟩ := cleanFields_req_nonarr_inv hk1 hk2
                  hk3 (by intro l hc; cases hc) h
                refine ih Hrest _ ?_ out hrun
                exact keep_replay_entries hacc fun hnn hno =>
                  replay_req_entry hk1 hk2 hk3
                    (replayReqVal_of cv (Hv cv hcv) hnn hno)
            | num q =>
                obtain ⟨cv, hcv, hrun⟩ := cleanFields_req_nonarr_inv hk1 hk2
                  hk3 (by intro l hc; cases hc) h
                refine ih Hrest _ ?_ out hrun
                exact keep_replay_entries hacc fun hnn hno =>
                  replay_req_entry hk1 hk2 hk3
                    (replayReqVal_of cv (Hv cv hcv) hnn hno)
            | str s =>
                obtain ⟨cv, hcv, hrun⟩ := cleanFields_req_nonarr_inv hk1 hk2
                  hk3 (by intro l hc; cases hc) h
                refine ih Hrest _ ?_ out hrun
                exact keep_replay_entries hacc fun hnn hno =>
                  replay_req_entry hk1 hk2 hk3
                    (replayReqVal_of cv (Hv cv hcv) hnn hno)
            | obj kvs2 =>
                obtain ⟨cv, hcv, hrun⟩ := cleanFields_req_nonarr_inv hk1 hk2
                  hk3 (by intro l hc; cases hc) h
                refine ih Hrest _ ?_ out hrun
                exact keep_replay_entries hacc fun hnn hno =>
                  replay_req_entry hk1 hk2 hk3
                    (replayReqVal_of cv (Hv cv hcv) hnn hno)
          · obtain ⟨cv, hcv, hrun⟩ := cleanFields_cons_nonspecial hk1 hk2
              hk3 h
            refine ih Hrest _ ?_ out hrun
            exact keep_replay_entries hacc fun hnn hno =>
              replay_generic_entry hk1 hk2 hk3 (Hv cv hcv) hnn hno
      · rw [cleanFields_unsupported_eq v rest acc hk1] at h
        exact ih Hrest acc hacc out h

theorem postRequired_out {cleaned out : List (String × JVal)}
    (h : postRequired cleaned = some out)
    (hre : ∀ e ∈ cleaned, ReplayEntry e)
    (hnod : nodupKeysB cleaned = true) :
    (∀ e ∈ out, ReplayEntry e) ∧ nodupKeysB out = true ∧
      postStable out := by
  rcases hr : objGet cleaned "required" with _ | r
  · simp only [postRequired, hr] at h
    cases h
    refine ⟨hre, hnod, ?_⟩
    intro r p h1 h2
    rw [hr] at h1
    cases h1
  · rcases hp : objGet cleaned "properties" with _ | p
    · simp only [postRequired, hr, hp] at h
      cases h
      refine ⟨hre, hnod, ?_⟩
      intro r' p' h1 h2
      rw [hp] at h2
      cases h2
    · simp only [postRequired, hr, hp, Option.bind_eq_bind,
        Option.bind_eq_some, Option.pure_def, Option.some.injEq] at h
      obtain ⟨elems, helems, valid, hvalid, hout⟩ := h
      by_cases hie : valid.isEmpty = true
      · rw [if_pos hie] at hout
        subst hout
        refine ⟨fun e he => hre e (mem_objDel he),
          nodupKeysB_objDel _ _ hnod, ?_⟩
        intro r' p' h1 h2
        rw [objGet_objDel_self] at h1
        cases h1
      · rw [if_neg hie] at hout
        subst hout
        have hmem : ∀ e ∈ valid, pyMem e p = some true :=
          fun e he => (filterMem_spec elems p valid hvalid e he).2
        refine ⟨?_, nodupKeysB_objSet _ _ _ hnod, ?_⟩
        · exact ReplayEntries_objSet hre
            (replay_req_entry (by decide) (by decide) rfl True.intro)
        · intro r' p' h1 h2
          rw [objGet_objSet_self] at h1
          rw [objGet_objSet_ne _ _ _ _ (by decide), hp] at h2
          cases h1
          cases h2
          refine ⟨valid, rfl, ?_, hmem⟩
          intro hc
          subst hc
          exact hie rfl

theorem cleanList_idem : ∀ (xs ys : List JVal),
    (∀ x ∈ xs, ∀ t, clean_schema_for_gemini x = some t →
      clean_schema_for_gemini t = some t) →
    cleanList xs = some ys → cleanList ys = some ys := by
  intro xs
  induction xs with
  | nil =>
      intro ys _ h
      simp only [cleanList, Option.pure_def, Option.some.injEq] at h
      subst h
      rfl
  | cons x rest ih =>
      intro ys hx h
      simp only [cleanList, Option.bind_eq_bind, Option.bind_eq_some,
        Option.pure_def, Option.some.injEq] at h
      obtain ⟨y, hy, ys', hys', rfl⟩ := h
      have h1 : clean_schema_for_gemini y = some y :=
        hx x (List.mem_cons_self _ _) y hy
      have h2 : cleanList ys' = some ys' :=
        ih ys' (fun z hz => hx z (List.mem_cons_of_mem _ hz)) hys'
      simp only [cleanList, Option.bind_eq_bind]
      rw [h1, Option.some_bind, h2, Option.some_bind]
      rfl

/-- The sanitizer is a projection: its outputs are its fixed points. -/
theorem clean_idem : ∀ (s t : JVal),
    clean_schema_for_gemini s = some t →
    clean_schema_for_gemini t = some t := by
  suffices H : ∀ (n : Nat) (s : JVal), sizeOf s ≤ n →
      ∀ t, clean_schema_for_gemini s = some t →
        clean_schema_for_gemini t = some t by
    exact fun s t ht => H (sizeOf s) s le_rfl t ht
  intro n
  induction n with
  | zero =>
      intro s hs
      exact absurd hs (by cases s <;> simp <;> omega)
  | succ n ihn =>
      intro s hsize t ht
      cases s with
      | null => cases ht; rfl
      | bool b => cases ht; rfl
      | num q => cases ht; rfl
      | str s2 => cases ht; rfl
      | arr xs =>
          simp only [clean_schema_for_gemini, Option.bind_eq_bind,
            Option.bind_eq_some, Option.pure_def, Option.some.injEq] at ht
          obtain ⟨ys, hys, rfl⟩ := ht
          have h2 : cleanList ys = some ys := by
            refine cleanList_idem xs ys ?_ hys
            intro x hx t' ht'
            refine ihn x ?_ t' ht'
            have := List.sizeOf_lt_of_mem hx
            simp only [JVal.arr.sizeOf_spec] at hsize
            omega
          simp only [clean_schema_for_gemini, Option.bind_eq_bind]
          rw [h2, Option.some_bind]
          rfl
      | obj kvs =>
          simp only [clean_schema_for_gemini, Option.bind_eq_bind,
            Option.bind_eq_some, Option.pure_def, Option.some.injEq] at ht
          obtain ⟨cleaned, hcf, post, hpost, rfl⟩ := ht
          have Hsz : ∀ u : JVal, sizeOf u < sizeOf kvs →
              ∀ t', clean_schema_for_gemini u = some t' →
                clean_schema_for_gemini t' = some t' := by
            intro u hu t' ht'
            refine ihn u ?_ t' ht'
            simp only [JVal.obj.sizeOf_spec] at hsize
            omega
          have hre1 : ∀ e ∈ cleaned, ReplayEntry e :=
            cleanFields_replayout_aux kvs Hsz []
              (by intro e he; simp at he) cleaned hcf
          have hnod1 : nodupKeysB cleaned = true :=
            cleanFields_nodup kvs [] cleaned hcf rfl
          obtain ⟨hre2, hnod2, hps⟩ := postRequired_out hpost hre1 hnod1
          simp only [clean_schema_for_gemini, Option.bind_eq_bind]
          rw [cleanFields_replay post [] hre2 hnod2 fun e he => rfl,
            Option.some_bind, List.nil_append, postRequired_replay hps,
            Option.some_bind]
          rfl

/-- C5 (amended): keyword allowlisting of the sanitizer output holds in
schema positions.  For every input whose `required` lists hold arrays of
strings (the shape of every schema the model registry generates), every
dict in schema position of a successful output carries only the keys
`type`, `properties`, `items`, `required` and `enum`.  The claim's
unconditional every-dict form is false: the keys of a `properties` map
are field names rather than keywords, and the `required` branch copies
its value verbatim, so non-string entries inside a `required` array
survive with arbitrary keys (see the counterexample). -/
theorem C5_keyword_allowlist_amended (s t : JVal)
    (hreq : required_strings_only s = true)
    (h : clean_schema_for_gemini s = some t) :
    sanitary_keys t = true :=
  (clean_schema_good s hreq t h).1

theorem C5_keyword_allowlist_amended_witness :
    sanitary_keys (JVal.obj [("type", JVal.str "object"),
      ("properties", JVal.obj [("name",
        JVal.obj [("type", JVal.str "string")])]),
      ("required", JVal.arr [JVal.str "name"])]) = true :=
  C5_keyword_allowlist_amended
    (JVal.obj [("type", JVal.str "object"),
      ("properties", JVal.obj [("name",
        JVal.obj [("type", JVal.str "string"),
          ("description", JVal.str "the name")])]),
      ("required", JVal.arr [JVal.str "name"]),
      ("additionalProperties", JVal.bool false)])
    (JVal.obj [("type", JVal.str "object"),
      ("properties", JVal.obj [("name",
        JVal.obj [("type", JVal.str "string")])]),
      ("required", JVal.arr [JVal.str "name"])])
    (by decide) (by decide)

/-- C6 (amended): after a successful sanitization of an input whose
`required` lists are arrays of strings, every output dict carrying BOTH
a `required` entry and a dict-valued `properties` entry has a non-empty
`required` array naming only fields of that `properties` map (an
emptied list is deleted rather than kept).  Without a surviving
`properties` sibling the post-processing guard does not fire and a
stale `required` list is kept (see the counterexample). -/
theorem C6_required_pruning_amended (s t : JVal)
    (hreq : required_strings_only s = true)
    (h : clean_schema_for_gemini s = some t) :
    pruned_required t = true :=
  (clean_schema_good s hreq t h).2

theorem C6_required_pruning_amended_witness :
    pruned_required (JVal.obj [("type", JVal.str "object"),
      ("properties", JVal.obj [("a",
        JVal.obj [("type", JVal.str "string")])]),
      ("required", JVal.arr [JVal.str "a"])]) = true :=
  C6_required_pruning_amended
    (JVal.obj [("type", JVal.str "object"),
      ("properties", JVal.obj [("a",
        JVal.obj [("type", JVal.str "string"),
          ("description", JVal.str "a field")])]),
      ("required", JVal.arr [JVal.str "a", JVal.str "b"])])
    (JVal.obj [("type", JVal.str "object"),
      ("properties", JVal.obj [("a",
        JVal.obj [("type", JVal.str "string")])]),
      ("required", JVal.arr [JVal.str "a"])])
    (by decide) (by decide)

/-- C7: sanitizer idempotence: for every schema document `s`,
sanitizing twice equals sanitizing once —
`_clean_schema_for_gemini(_clean_schema_for_gemini(s))` agrees with
`_clean_schema_for_gemini(s)` (in particular every successful output is
a fixed point, and a raising input raises again), so an already-clean
document round-trips through the sanitizer unchanged. -/
theorem C7_sanitizer_idempotence (s : JVal) :
    (clean_schema_for_gemini s).bind clean_schema_for_gemini =
      clean_schema_for_gemini s := by
  cases h : clean_schema_for_gemini s with
  | none => rfl
  | some t =>
      rw [Option.some_bind]
      exact clean_idem s t h

theorem cleanProps_all_falsy : ∀ (pkvs acc : List (String × JVal)),
    (∀ p ∈ pkvs, ∃ cv, clean_schema_for_gemini p.2 = some cv ∧
      pyTruthy cv = false) →
    cleanProps pkvs acc = some acc := by
  intro pkvs
  induction pkvs with
  | nil => intro acc _; rfl
  | cons p rest ih =>
      obtain ⟨pn, ps⟩ := p
      intro acc hfall
      obtain ⟨cv, hcv, hfa⟩ := hfall (pn, ps) (List.mem_cons_self _ _)
      simp only [cleanProps, Option.bind_eq_bind]
      rw [hcv, Option.some_bind, hfa]
      simp only [Bool.false_eq_true, if_false]
      exact ih acc fun q hq => hfall q (List.mem_cons_of_mem _ hq)

/-- C10 counterexample: on `c10_schema` the one property `b` (declared
only with a `description`) is stripped to an empty schema and dropped,
and the emptied `properties` key itself is absent from the output — but
`required` still names `b`, because the pruning guard requires a
surviving `properties` key. -/
theorem C10_empty_properties_cex :
    clean_schema_for_gemini c10_schema =
      some (.obj [("type", JVal.str "object"),
        ("required", .arr [JVal.str "b"])]) ∧
    objHasKey [("type", JVal.str "object"),
      ("required", JVal.arr [JVal.str "b"])] "properties" = false ∧
    objGet [("type", JVal.str "object"),
      ("required", JVal.arr [JVal.str "b"])] "required" =
      some (.arr [JVal.str "b"]) :=
  ⟨by decide, by decide, by decide⟩

/-- C10 (amended): the sanitizer does drop empty properties — a property
whose cleaned sub-schema is falsy (e.g. declared only with a
`description`) leaves no key in the rebuilt `properties` map, and when
every property is dropped this way the whole `properties` entry
contributes nothing to the output dict (the loop step is skipped
entirely).  The tail of the original claim is false: such field names
are NOT pruned from a sibling `required` list in that case, since the
pruning runs only when a `properties` key survives (see the
counterexample). -/
theorem C10_empty_properties_amended :
    (∀ (pkvs acc out : List (String × JVal)),
      cleanProps pkvs acc = some out →
      ∀ nm : String,
        (∀ p ∈ pkvs, p.1 = nm →
          ∃ cv, clean_schema_for_gemini p.2 = some cv ∧
            pyTruthy cv = false) →
        objHasKey out nm = objHasKey acc nm) ∧
    (∀ (pkvs rest acc out : List (String × JVal)),
      cleanFields (("properties", JVal.obj pkvs) :: rest) acc = some out →
      (∀ p ∈ pkvs, ∃ cv, clean_schema_for_gemini p.2 = some cv ∧
        pyTruthy cv = false) →
      cleanFields rest acc = some out) := by
  constructor
  · intro pkvs
    induction pkvs with
    | nil =>
        intro acc out h nm _
        simp only [cleanProps, Option.pure_def, Option.some.injEq] at h
        subst h
        rfl
    | cons p rest ih =>
        obtain ⟨pn, ps⟩ := p
        intro acc out h nm hfall
        simp only [cleanProps, Option.bind_eq_bind, Option.bind_eq_some] at h
        obtain ⟨cv, hcv, hrest⟩ := h
        by_cases htr : pyTruthy cv = true
        · rw [if_pos htr] at hrest
          have hrec := ih _ out hrest nm
            fun q hq hq1 => hfall q (List.mem_cons_of_mem _ hq) hq1
          rw [hrec]
          have hpn : ¬nm = pn := by
            intro hEq
            obtain ⟨cv', hcv', hfa⟩ :=
              hfall (pn, ps) (List.mem_cons_self _ _) hEq.symm
            rw [hcv] at hcv'
            cases hcv'
            rw [htr] at hfa
            cases hfa
          exact objHasKey_objSet_ne acc pn nm cv hpn
        · rw [if_neg htr] at hrest
          exact ih _ out hrest nm
            fun q hq hq1 => hfall q (List.mem_cons_of_mem _ hq) hq1
  · intro pkvs rest acc out h hfall
    rw [cleanFields_props_obj_eq pkvs rest acc (by decide) rfl] at h
    simp only [Option.bind_eq_bind, Option.bind_eq_some] at h
    obtain ⟨cps, hcps, hrun⟩ := h
    have h0 := cleanProps_all_falsy pkvs [] hfall
    cases h0.symm.trans hcps
    simpa using hrun

theorem C10_empty_properties_amended_witness :
    objHasKey [("a", JVal.bool true)] "b" =
      objHasKey [("a", JVal.bool true)] "b" ∧
    cleanFields [("type", JVal.str "object")] [] =
      some [("type", JVal.str "object")] :=
  ⟨C10_empty_properties_amended.1
      [("b", JVal.obj [("description", JVal.str "y")])]
      [("a", JVal.bool true)] [("a", JVal.bool true)] (by decide) "b"
      (by
        intro p hp hnm
        have hp' : p = ("b", JVal.obj [("description", JVal.str "y")]) := by
          simpa using hp
        subst hp'
        exact ⟨JVal.obj [], by decide, by decide⟩),
   C10_empty_properties_amended.2
      [("b", JVal.obj [("description", JVal.str "y")])]
      [("type", JVal.str "object")] [] [("type", JVal.str "object")]
      (by decide)
      (by
        intro p hp
        have hp' : p = ("b", JVal.obj [("description", JVal.str "y")]) := by
          simpa using hp
        subst hp'
        exact ⟨JVal.obj [], by decide, by decide⟩)⟩

end GeminiAnalyzer
